import Mathlib

/-!
# Phenotype network of `neat` (network.go)

A verification development for `network.go`: the decoding of a genome into a
network (`NewNetwork`) and the single evaluation pass (`Network.Activate`).

Modelling choices.

* `float64` values are taken from an abstract carrier `α` with `0`, `+` and `*`.
  No law of arithmetic is assumed, so every theorem holds for any
  interpretation of the three, the rounding operations of `float64` included;
  a sum is the accumulation of the Go loop, left to right from `0`, in the
  order of the inbound sequence.
* The Go heap of `*Node` values built by `NewNetwork` is the node sequence of
  the network itself: a `*Node` is the position of the node in `Network.nodes`.
  A reference that is not a position of the sequence plays the part of a nil
  pointer (dereferencing it is a fault).
* `map[*Node]float64` is an association list with one entry per key; reading a
  missing key gives the zero value, as in Go.
* A run-time panic is an explicit `Fault` result.
* `param.NumSensors` and `param.NumOutputs` are parameters `S` and `O`, natural
  numbers (the configuration counts are positive integers).
* The node and connection descriptors, `byNID` and the library functions
  `sort.IsSorted`, `sort.Sort`, `sort.Search` are declared outside `network.go`
  and modelled from their use in it.
-/

namespace Neat

/-! ## Data model -/

/-- Run-time panics of the Go program. -/
inductive Fault where
  | indexOutOfRange
  | nilDereference
  deriving DecidableEq, Repr

/-- The Go type `map[*Node]float64`: at most one entry per key. -/
abbrev WeightMap (α : Type) := List (Nat × α)

/-- The entry of key `q`, if the map has one (`v, ok := m[q]`). -/
def WeightMap.lookup {α : Type} : WeightMap α → Nat → Option α
  | [], _ => none
  | (k, v) :: m, q => if k = q then some v else WeightMap.lookup m q

/-- Map read `m[q]`: the stored value, or the zero value when `q` is missing. -/
def WeightMap.get {α : Type} [Zero α] (m : WeightMap α) (q : Nat) : α :=
  match m.lookup q with
  | some v => v
  | none => 0

/-- Map write `m[k] = v`: replaces the entry of `k` or adds one. -/
def WeightMap.set {α : Type} : WeightMap α → Nat → α → WeightMap α
  | [], q, w => [(q, w)]
  | (k, v) :: m, q, w => if k = q then (k, w) :: m else (k, v) :: WeightMap.set m q w

/-- The Go struct `Node`; `afn` is a pointer and may be nil (`none`). -/
structure Node (α : Type) where
  nid : Int
  connNodes : List Nat
  weights : WeightMap α
  signal : α
  afn : Option (α → α)

/-- The Go struct `Network`. -/
structure Network (α : Type) where
  nodes : List (Node α)

/-- Outcome of `Network.Activate`: the pair `(outputs, nil)`, the pair
`(nil, error)`, or a panic; the first two carry the network as the call left it. -/
inductive Result (α : Type) where
  | ok (net : Network α) (outputs : List α)
  | err (net : Network α) (msg : String)
  | panic (f : Fault)

/-- Read of `node.signal` through the reference `q` (zero outside the sequence,
where the program itself never reads). -/
def signalAt {α : Type} [Zero α] (nodes : List (Node α)) (q : Nat) : α :=
  match nodes[q]? with
  | some nd => nd.signal
  | none => 0

/-! ## `Node.Output` -/

/-- The loop `for _, node := range n.connNodes { sum += node.signal * n.weights[node] }`. -/
def sumLoop {α : Type} [Zero α] [Add α] [Mul α] (nodes : List (Node α)) (w : WeightMap α) :
    List Nat → α → Except Fault α
  | [], sum => .ok sum
  | q :: rest, sum =>
    match nodes[q]? with
    | none => .error .nilDereference
    | some node => sumLoop nodes w rest (sum + node.signal * w.get q)

/-- Method `func (n *Node) Output() float64` for the node at position `p`: returns the
updated node sequence and the returned signal. -/
def Node.Output {α : Type} [Zero α] [Add α] [Mul α] (nodes : List (Node α)) (p : Nat) :
    Except Fault (List (Node α) × α) :=
  match nodes[p]? with
  | none => .error .nilDereference
  | some n =>
    match sumLoop nodes n.weights n.connNodes 0 with
    | .error f => .error f
    | .ok sum =>
      match n.afn with
      | none => .error .nilDereference
      | some fn =>
        let s := fn sum
        .ok (nodes.set p { n with signal := s }, s)

/-! ## `Network.Activate` -/

/-- The loop `for i := 0; i < S; i++ { n.nodes[i].signal = inputs[i] }`, with
`k` iterations left and counter `i`. -/
def sensorLoop {α : Type} (inputs : List α) : Nat → Nat → List (Node α) →
    Except Fault (List (Node α))
  | 0, _, nodes => .ok nodes
  | k + 1, i, nodes =>
    match nodes[i]?, inputs[i]? with
    | some nd, some x => sensorLoop inputs k (i + 1) (nodes.set i { nd with signal := x })
    | _, _ => .error .indexOutOfRange

/-- A loop `for i := lo; i < lo + k; i++ { ... n.nodes[i].Output() ... }`, with
`k` iterations left and counter `i`; the returned values are collected in order
(`outputs = append(outputs, n.nodes[i].Output())`). The test `i < nodes.length`
is the bounds check of `n.nodes[i]`. Both loops of `Activate` over `Output` are
instances: the hidden loop discards the collected values. -/
def outputLoop {α : Type} [Zero α] [Add α] [Mul α] : Nat → Nat → List (Node α) →
    Except Fault (List (Node α) × List α)
  | 0, _, nodes => .ok (nodes, [])
  | k + 1, i, nodes =>
    if i < nodes.length then
      match Node.Output nodes i with
      | .error f => .error f
      | .ok (nodes1, v) =>
        match outputLoop k (i + 1) nodes1 with
        | .error f => .error f
        | .ok (nodes2, vs) => .ok (nodes2, v :: vs)
    else .error .indexOutOfRange

/-- Method `func (n *Network) Activate(inputs []float64) ([]float64, error)`. -/
def Network.Activate {α : Type} [Zero α] [Add α] [Mul α] (S O : Nat) (n : Network α)
    (inputs : List α) : Result α :=
  if inputs.length ≠ S then .err n "Invalid number of sensors"
  else
    -- register inputs to sensor nodes as signals
    match sensorLoop inputs S 0 n.nodes with
    | .error f => .panic f
    | .ok nodes1 =>
      -- activate all hidden nodes: `for i := h; i < len(n.nodes); i++`
      let h := S + O
      match outputLoop (nodes1.length - h) h nodes1 with
      | .error f => .panic f
      | .ok (nodes2, _) =>
        -- activate all output nodes: `for i := param.NumSensors; i < h; i++`
        match outputLoop O S nodes2 with
        | .error f => .panic f
        | .ok (nodes3, outputs) => .ok { nodes := nodes3 } outputs

/-! ## Genome side (declared outside `network.go`) -/

/-- Modelled from the spec: the struct `ActivationFunc` is not part of
`network.go`; an activation function is a pure function on the carrier, and a
`*ActivationFunc` is `Option (α → α)`, with `none` for nil. The fields of
`NodeGene` are those `NewNode` reads: `nid` and `afn`. -/
structure NodeGene (α : Type) where
  nid : Int
  afn : Option (α → α)

/-- Modelled from the spec: the connection descriptor is not part of
`network.go`; its fields are those `NewNetwork` reads: source id `in` (here
`src`, as `in` is reserved), target id `out`, `weight` and `disabled`. -/
structure ConnGene (α : Type) where
  src : Int
  out : Int
  weight : α
  disabled : Bool

/-- Modelled from the spec: the genome, an ordered collection of node
descriptors and one of connection descriptors. -/
structure Genome (α : Type) where
  nodes : List (NodeGene α)
  conns : List (ConnGene α)

/-- Modelled from the spec: `byNID` orders node descriptors ascending by id;
`Less(i, j)` is `nodes[i].nid < nodes[j].nid`. -/
def byNID.Less {α : Type} (a b : NodeGene α) : Bool := decide (a.nid < b.nid)

/-- Go's `sort.IsSorted`: no element is `Less` than its predecessor. -/
def IsSorted {α : Type} : List (NodeGene α) → Bool
  | [] => true
  | [_] => true
  | a :: b :: rest => !(byNID.Less b a) && IsSorted (b :: rest)

/-- The order `sort.Sort(byNID(...))` sorts by: `¬ Less(b, a)`. -/
def byNID.le {α : Type} (a b : NodeGene α) : Prop := a.nid ≤ b.nid

instance byNID.decLe {α : Type} : DecidableRel (byNID.le : NodeGene α → NodeGene α → Prop) :=
  fun a b => inferInstanceAs (Decidable (a.nid ≤ b.nid))

/-- Go's `sort.Sort(byNID(nodes))`, which sorts ascending by id and promises no
stability: modelled by insertion sort (the order of descriptors with equal ids
is the one thing the model fixes and Go does not). It is named `sortByNID`
because `Sort` is reserved. -/
def sortByNID {α : Type} (nodes : List (NodeGene α)) : List (NodeGene α) :=
  nodes.insertionSort byNID.le

/-- The loop of Go's `sort.Search`: `for i < j { h := (i+j)/2; if !f(h) { i = h+1 } else { j = h } }`,
with `fuel` bounding the number of iterations. -/
def searchLoop (f : Nat → Bool) : Nat → Nat → Nat → Nat
  | 0, i, _ => i
  | fuel + 1, i, j =>
    if i < j then
      let h := (i + j) / 2
      if !f h then searchLoop f fuel (h + 1) j else searchLoop f fuel i h
    else i

/-- Go's `sort.Search(n, f)`: binary search on `[0, n)`; the interval at least
halves in each iteration, so `n` iterations are enough. -/
def Search (n : Nat) (f : Nat → Bool) : Nat := searchLoop f n 0 n

/-! ## `NewNode` and `NewNetwork` -/

/-- Function `func NewNode(n *NodeGene) *Node`. -/
def NewNode {α : Type} [Zero α] (n : NodeGene α) : Node α :=
  { nid := n.nid, connNodes := [], weights := [], signal := 0, afn := n.afn }

/-- The id `nodes[i].nid` read by the search predicates. -/
def nidAt {α : Type} (nodes : List (Node α)) (i : Nat) : Int :=
  match nodes[i]? with
  | some nd => nd.nid
  | none => 0

/-- The guarded lookup `i := sort.Search(len(nodes), nodes[i].nid >= id); i < len(nodes) && nodes[i].nid == id`:
the position found, when the guard holds. -/
def findNode {α : Type} (nodes : List (Node α)) (id : Int) : Option Nat :=
  let i := Search nodes.length (fun i => decide (nidAt nodes i ≥ id))
  if i < nodes.length ∧ nidAt nodes i = id then some i else none

/-- The body of the loop `for _, conn := range g.conns` of `NewNetwork`. -/
def connect {α : Type} (nodes : List (Node α)) (conn : ConnGene α) : List (Node α) :=
  if !conn.disabled then
    match findNode nodes conn.src with
    | none => nodes
    | some i =>
      match findNode nodes conn.out with
      | none => nodes
      | some o =>
        match nodes[o]? with
        | none => nodes
        | some nd =>
          nodes.set o { nd with connNodes := nd.connNodes ++ [i],
                                weights := nd.weights.set i conn.weight }
  else nodes

/-- The node descriptors of the genome as `NewNetwork` leaves them:
`if !sort.IsSorted(byNID(g.nodes)) { sort.Sort(byNID(g.nodes)) }`. -/
def sortedNodes {α : Type} (g : Genome α) : List (NodeGene α) :=
  if !IsSorted g.nodes then sortByNID g.nodes else g.nodes

/-- Function `func NewNetwork(g *Genome) *Network`: the genome as the call leaves it
(its node list is sorted in place) and the decoded network. -/
def NewNetwork {α : Type} [Zero α] (g : Genome α) : Genome α × Network α :=
  let gnodes := sortedNodes g
  let nodes := gnodes.map NewNode
  let nodes := g.conns.foldl connect nodes
  ({ g with nodes := gnodes }, { nodes := nodes })

/-! ## Auxiliary predicates and examples -/

/-- Two nodes differ at most in their signal. -/
def Node.SameTopology {α : Type} (x y : Node α) : Prop :=
  x.nid = y.nid ∧ x.connNodes = y.connNodes ∧ x.weights = y.weights ∧ x.afn = y.afn

/-- Two node sequences have the same length and differ at most in signals. -/
def SameTopology {α : Type} (a b : List (Node α)) : Prop :=
  a.length = b.length ∧ ∀ (q : Nat) (x y : Node α), a[q]? = some x → b[q]? = some y → Node.SameTopology x y

/-- The node at position `p` has a resolved activation function and all its
inbound references are positions of the sequence. -/
def evaluable {α : Type} (nodes : List (Node α)) (p : Nat) : Bool :=
  match nodes[p]? with
  | some nd => nd.afn.isSome && nd.connNodes.all (fun q => decide (q < nodes.length))
  | none => false

/-- Every node from position `S` on (the outputs and the hidden nodes) is
`evaluable`. -/
def Network.evaluableFrom {α : Type} (S : Nat) (n : Network α) : Bool :=
  (List.range n.nodes.length).all (fun p => decide (p < S) || evaluable n.nodes p)

/-- The weighted sum of `Node.Output` over an inbound sequence, accumulated as
the Go loop does, `sum := 0.0; sum += node.signal * n.weights[node]` entry by
entry from left to right, the signals being read through `sig`. -/
def weightedSum {α : Type} [Zero α] [Add α] [Mul α] (sig : Nat → α) (w : WeightMap α)
    (conn : List Nat) : α :=
  conn.foldl (fun sum q => sum + sig q * w.get q) 0

/-- The three stages of a completed call of `Network.Activate`: the node
sequences after the sensor loop, the hidden loop and the output loop. -/
structure ActivateTrace {α : Type} [Zero α] [Add α] [Mul α] (S O : Nat) (n : Network α) (inputs : List α)
    (nodes1 nodes2 nodes3 : List (Node α)) (outs : List α) : Prop where
  result : n.Activate S O inputs = .ok { nodes := nodes3 } outs
  sensors : sensorLoop inputs S 0 n.nodes = .ok nodes1
  hidden : ∃ vs, outputLoop (n.nodes.length - (S + O)) (S + O) nodes1 = .ok (nodes2, vs)
  outputs : outputLoop O S nodes2 = .ok (nodes3, outs)
  top1 : SameTopology n.nodes nodes1
  top2 : SameTopology nodes1 nodes2
  top3 : SameTopology nodes2 nodes3

/-- The identity activation on the integers. -/
def idAfn : Option (ℤ → ℤ) := some (fun x => x)

/-- Two sensors (ids 0 and 1) and one output (id 2) that reads node 0 with
weight 1 and node 1 with weight 2; `S = 2`, `O = 1`. -/
def ffNet : Network ℤ :=
  { nodes := [ { nid := 0, connNodes := [], weights := [], signal := 0, afn := idAfn },
               { nid := 1, connNodes := [], weights := [], signal := 0, afn := idAfn },
               { nid := 2, connNodes := [0, 1], weights := [(0, 1), (1, 2)], signal := 0,
                 afn := idAfn } ] }

/-- The network as a returning call of `Activate` leaves it. A panic carries no
network in the model (the signals the Go call has written before it panics are
not modelled); for a panicking call this is the receiver, and nothing is stated
about signals after a panic. -/
def Network.after {α : Type} [Zero α] [Add α] [Mul α] (S O : Nat) (n : Network α)
    (inputs : List α) : Network α :=
  match n.Activate S O inputs with
  | .ok n1 _ => n1
  | .err n1 _ => n1
  | .panic _ => n

/-- The outputs returned by a call of `Activate`, if it returns any. -/
def Network.outputsOf {α : Type} [Zero α] [Add α] [Mul α] (S O : Nat) (n : Network α)
    (inputs : List α) : Option (List α) :=
  match n.Activate S O inputs with
  | .ok _ outs => some outs
  | _ => none

/-- The genome of the stale-read example: sensor `X` (id 0), output `Y` (id 1)
reading `X` with weight 1, hidden `H` (id 2) reading `Y` with weight 1;
`S = 1`, `O = 1`. -/
def staleGenome : Genome ℤ :=
  { nodes := [⟨0, idAfn⟩, ⟨1, idAfn⟩, ⟨2, idAfn⟩],
    conns := [⟨0, 1, 1, false⟩, ⟨1, 2, 1, false⟩] }

/-- The nodes of `ffNet` with the signals 1 and 3 in the sensors. -/
def ffLoaded : List (Node ℤ) :=
  [ { nid := 0, connNodes := [], weights := [], signal := 1, afn := idAfn },
    { nid := 1, connNodes := [], weights := [], signal := 3, afn := idAfn },
    { nid := 2, connNodes := [0, 1], weights := [(0, 1), (1, 2)], signal := 0, afn := idAfn } ]

/-- The order of `byNID` is total. -/
instance byNID.isTotal {α : Type} : IsTotal (NodeGene α) byNID.le := ⟨fun a b => Int.le_total a.nid b.nid⟩

/-- The order of `byNID` is transitive. -/
instance byNID.isTrans {α : Type} : IsTrans (NodeGene α) byNID.le :=
  ⟨fun _ _ _ h1 h2 => Int.le_trans h1 h2⟩

/-- What the connection `c` adds to the node at position `o`, the lookups being
`pos`: the source position and the weight, when `c` is enabled, both ids are
found and the target is found at `o`. -/
def wire {α : Type} (pos : Int → Option Nat) (o : Nat) (c : ConnGene α) : Option (Nat × α) :=
  if c.disabled then none
  else
    match pos c.src, pos c.out with
    | some i, some o1 => if o1 = o then some (i, c.weight) else none
    | _, _ => none

/-- The two assignments of the loop body of `NewNetwork` on the target node:
`connNodes = append(connNodes, src)` and `weights[src] = w`. -/
def Node.addConn {α : Type} (nd : Node α) (x : Nat × α) : Node α :=
  { nd with connNodes := nd.connNodes ++ [x.1], weights := nd.weights.set x.1 x.2 }

/-- A genome given out of order: nodes 2, 0, 1; connections 0→2 (weight 1),
1→2 (weight 2), 5→2 (dangling source) and a disabled 1→2 (weight 7). -/
def mixedGenome : Genome ℤ :=
  { nodes := [⟨2, idAfn⟩, ⟨0, idAfn⟩, ⟨1, idAfn⟩],
    conns := [⟨0, 2, 1, false⟩, ⟨1, 2, 2, false⟩, ⟨5, 2, 2, false⟩, ⟨1, 2, 7, true⟩] }

/-- A genome with the same enabled connection pair twice: nodes 0 and 1,
connections 0→1 of weight 1 and 0→1 of weight 2. -/
def dupGenome : Genome ℤ :=
  { nodes := [⟨0, idAfn⟩, ⟨1, idAfn⟩],
    conns := [⟨0, 1, 1, false⟩, ⟨0, 1, 2, false⟩] }

/-- A genome whose only node descriptor has an unresolved (nil) activation. -/
def nilGenome : Genome ℤ :=
  { nodes := [⟨0, none⟩], conns := [] }

/-- The genome of the cycle example: sensor `X` (id 0), output `Y` (id 1)
reading `X` and `H`, hidden `H` (id 2) reading `Y`, all weights 1;
`S = 1`, `O = 1`. -/
def cycleGenome : Genome ℤ :=
  { nodes := [⟨0, idAfn⟩, ⟨1, idAfn⟩, ⟨2, idAfn⟩],
    conns := [⟨0, 1, 1, false⟩, ⟨2, 1, 1, false⟩, ⟨1, 2, 1, false⟩] }

/-- The feed-forward condition of a network: every inbound source of an output
node (positions `[S, S+O)`) is a sensor or a hidden node, and every inbound
source of a hidden node (positions from `S+O` on) is a sensor or a hidden node
at a strictly lower position. -/
def Network.feedForward {α : Type} (S O : Nat) (n : Network α) : Bool :=
  (List.range n.nodes.length).all (fun p =>
    match n.nodes[p]? with
    | none => true
    | some nd =>
      if p < S then true
      else if p < S + O then nd.connNodes.all (fun y => decide (y < S) || decide (S + O ≤ y))
      else nd.connNodes.all (fun y => decide (y < S) || (decide (S + O ≤ y) && decide (y < p))))

/-- A feed-forward genome: sensor `X` (id 0), output `Y` (id 1) reading the
hidden `H`, hidden `H` (id 2) reading `X` with weight 2; `S = 1`, `O = 1`. -/
def chainGenome : Genome ℤ :=
  { nodes := [⟨0, idAfn⟩, ⟨1, idAfn⟩, ⟨2, idAfn⟩],
    conns := [⟨0, 2, 2, false⟩, ⟨2, 1, 1, false⟩] }

/-! ## Theorems -/

section Theorems
variable {α : Type}

theorem nodeSameTopology_refl (x : Node α) : Node.SameTopology x x := ⟨rfl, rfl, rfl, rfl⟩

theorem nodeSameTopology_trans {x y z : Node α} (h1 : Node.SameTopology x y)
    (h2 : Node.SameTopology y z) : Node.SameTopology x z :=
  ⟨h1.1.trans h2.1, h1.2.1.trans h2.2.1, h1.2.2.1.trans h2.2.2.1, h1.2.2.2.trans h2.2.2.2⟩

theorem sameTopology_refl (a : List (Node α)) : SameTopology a a := by
  refine ⟨rfl, ?_⟩
  intro q x y hx hy
  rw [hx] at hy
  cases hy
  exact nodeSameTopology_refl x

theorem sameTopology_trans {a b c : List (Node α)} (h1 : SameTopology a b)
    (h2 : SameTopology b c) : SameTopology a c := by
  refine ⟨h1.1.trans h2.1, ?_⟩
  intro q x z hx hz
  have hq : q < b.length := by
    rw [← h1.1]
    exact (List.getElem?_eq_some_iff.mp hx).1
  have hy : b[q]? = some b[q] := List.getElem?_eq_getElem hq
  exact nodeSameTopology_trans (h1.2 q x _ hx hy) (h2.2 q _ z hy hz)

theorem sameTopology_set (a : List (Node α)) (p : Nat) (n : Node α) (s : α)
    (hp : a[p]? = some n) : SameTopology a (a.set p { n with signal := s }) := by
  refine ⟨by simp, ?_⟩
  intro q x y hx hy
  by_cases hqp : p = q
  · subst hqp
    rw [hp] at hx
    cases hx
    have hlt : p < a.length := (List.getElem?_eq_some_iff.mp hp).1
    rw [List.getElem?_set_self hlt] at hy
    cases hy
    exact ⟨rfl, rfl, rfl, rfl⟩
  · rw [List.getElem?_set_ne hqp] at hy
    rw [hx] at hy
    cases hy
    exact nodeSameTopology_refl x

theorem sameTopology_symm {a b : List (Node α)} (h : SameTopology a b) : SameTopology b a := by
  refine ⟨h.1.symm, ?_⟩
  intro q x y hx hy
  have := h.2 q y x hy hx
  exact ⟨this.1.symm, this.2.1.symm, this.2.2.1.symm, this.2.2.2.symm⟩

theorem sameTopology_get {a b : List (Node α)} (h : SameTopology a b) {p : Nat} {x : Node α}
    (hx : a[p]? = some x) : ∃ y, b[p]? = some y ∧ Node.SameTopology x y := by
  have hp : p < b.length := by
    rw [← h.1]; exact (List.getElem?_eq_some_iff.mp hx).1
  have hy : b[p]? = some b[p] := List.getElem?_eq_getElem hp
  exact ⟨_, hy, h.2 p x _ hx hy⟩

theorem signalAt_set_eq [Zero α] (a : List (Node α)) (p : Nat) (n : Node α)
    (hp : p < a.length) : signalAt (a.set p n) p = n.signal := by
  simp [signalAt, List.getElem?_set_self hp]

theorem signalAt_set_ne [Zero α] (a : List (Node α)) (p q : Nat) (n : Node α)
    (hpq : p ≠ q) : signalAt (a.set p n) q = signalAt a q := by
  simp [signalAt, List.getElem?_set_ne hpq]

theorem sumLoop_ok [Zero α] [Add α] [Mul α] (nodes : List (Node α)) (w : WeightMap α)
    (conn : List Nat) (acc : α) (h : ∀ q ∈ conn, q < nodes.length) :
    sumLoop nodes w conn acc =
      .ok (conn.foldl (fun sum q => sum + signalAt nodes q * w.get q) acc) := by
  induction conn generalizing acc with
  | nil => rfl
  | cons q rest ih =>
    have hq : q < nodes.length := h q (List.mem_cons_self _ _)
    have hrest : ∀ r ∈ rest, r < nodes.length := fun r hr => h r (List.mem_cons_of_mem _ hr)
    have hget : nodes[q]? = some nodes[q] := List.getElem?_eq_getElem hq
    have hsig : signalAt nodes q = nodes[q].signal := by simp [signalAt, hget]
    simp only [sumLoop, hget, List.foldl_cons]
    rw [ih _ hrest, hsig]

theorem sumLoop_ok_inv [Zero α] [Add α] [Mul α] (nodes : List (Node α)) (w : WeightMap α)
    (conn : List Nat) (acc v : α) (h : sumLoop nodes w conn acc = .ok v) :
    ∀ q ∈ conn, q < nodes.length := by
  induction conn generalizing acc with
  | nil => simp
  | cons q rest ih =>
    intro r hr
    simp only [sumLoop] at h
    cases hq : nodes[q]? with
    | none => simp [hq] at h
    | some nd =>
      simp only [hq] at h
      rcases List.mem_cons.mp hr with rfl | hr
      · exact (List.getElem?_eq_some_iff.mp hq).1
      · exact ih _ h r hr

theorem evaluable_iff (nodes : List (Node α)) (p : Nat) :
    evaluable nodes p = true ↔
      ∃ nd f, nodes[p]? = some nd ∧ nd.afn = some f ∧ ∀ q ∈ nd.connNodes, q < nodes.length := by
  unfold evaluable
  cases hp : nodes[p]? with
  | none => simp
  | some nd =>
    cases hf : nd.afn with
    | none => simp [hf]
    | some f => simp [hf]

theorem evaluable_congr {a b : List (Node α)} (h : SameTopology a b) (p : Nat) :
    evaluable b p = evaluable a p := by
  have key : ∀ {a b : List (Node α)}, SameTopology a b → evaluable a p = true →
      evaluable b p = true := by
    intro a b h ha
    rcases (evaluable_iff a p).mp ha with ⟨nd, f, hnd, hf, hc⟩
    have hp : p < b.length := by
      rw [← h.1]
      exact (List.getElem?_eq_some_iff.mp hnd).1
    have hb : b[p]? = some b[p] := List.getElem?_eq_getElem hp
    have hs := h.2 p nd _ hnd hb
    refine (evaluable_iff b p).mpr ⟨b[p], f, hb, ?_, ?_⟩
    · rw [← hs.2.2.2, hf]
    · rw [← hs.2.1, ← h.1]
      exact hc
  have hsymm : SameTopology b a := by
    refine ⟨h.1.symm, ?_⟩
    intro q x y hx hy
    have := h.2 q y x hy hx
    exact ⟨this.1.symm, this.2.1.symm, this.2.2.1.symm, this.2.2.2.symm⟩
  cases hb : evaluable b p with
  | true => exact (key hsymm hb).symm
  | false =>
    cases ha : evaluable a p with
    | false => rfl
    | true => rw [key h ha] at hb; cases hb

/-- Call of `Node.Output` on an evaluable node: the new signal is the activation of the
weighted sum of the signals held at call time. -/
theorem Output_ok [Zero α] [Add α] [Mul α] (nodes : List (Node α)) (p : Nat) (n : Node α)
    (f : α → α) (hp : nodes[p]? = some n) (hf : n.afn = some f)
    (hc : ∀ q ∈ n.connNodes, q < nodes.length) :
    Node.Output nodes p =
      .ok (nodes.set p { n with signal := f (weightedSum (signalAt nodes) n.weights n.connNodes) },
           f (weightedSum (signalAt nodes) n.weights n.connNodes)) := by
  unfold Node.Output weightedSum
  simp only [hp, sumLoop_ok nodes n.weights n.connNodes 0 hc, hf]

/-- Whenever `Node.Output` returns, the node was evaluable and the result is
the one of `Output_ok`. -/
theorem Output_ok_inv [Zero α] [Add α] [Mul α] (nodes nodes1 : List (Node α)) (p : Nat) (v : α)
    (h : Node.Output nodes p = .ok (nodes1, v)) :
    ∃ n f, nodes[p]? = some n ∧ n.afn = some f ∧ (∀ q ∈ n.connNodes, q < nodes.length) ∧
      v = f (weightedSum (signalAt nodes) n.weights n.connNodes) ∧
      nodes1 = nodes.set p { n with signal := v } := by
  unfold Node.Output at h
  cases hp : nodes[p]? with
  | none => simp [hp] at h
  | some n =>
    simp only [hp] at h
    cases hs : sumLoop nodes n.weights n.connNodes 0 with
    | error e => simp [hs] at h
    | ok sum =>
      have hc := sumLoop_ok_inv nodes n.weights n.connNodes 0 sum hs
      cases hf : n.afn with
      | none => simp [hs, hf] at h
      | some f =>
        have := Output_ok nodes p n f hp hf hc
        unfold Node.Output at this
        simp only [hp, hs, hf] at this h
        rw [this] at h
        simp only [Except.ok.injEq, Prod.mk.injEq] at h
        exact ⟨n, f, rfl, hf, hc, h.2.symm, by rw [← h.1, h.2, hf]⟩

theorem signalAt_congr [Zero α] {a b : List (Node α)} {q : Nat} (h : a[q]? = b[q]?) :
    signalAt a q = signalAt b q := by
  simp [signalAt, h]

theorem evaluable_lt {nodes : List (Node α)} {p : Nat} (h : evaluable nodes p = true) :
    p < nodes.length := by
  rcases (evaluable_iff nodes p).mp h with ⟨nd, f, hnd, -, -⟩
  exact (List.getElem?_eq_some_iff.mp hnd).1

/-- One pass `for i := lo; i < lo + k; i++ { n.nodes[i].Output() }` over
evaluable nodes: it completes, changes signals only, and only inside the range;
a node of the range gets the activation of the weighted sum in which a source
evaluated earlier in the pass contributes its new signal and every other source
the signal it held before the pass. -/
theorem outputLoop_spec [Zero α] [Add α] [Mul α] (k i : Nat) (nodes : List (Node α))
    (hev : ∀ p, i ≤ p → p < i + k → evaluable nodes p = true) :
    ∃ nodes1 outs, outputLoop k i nodes = .ok (nodes1, outs) ∧ SameTopology nodes nodes1 ∧
      outs.length = k ∧
      (∀ q, (q < i ∨ i + k ≤ q) → nodes1[q]? = nodes[q]?) ∧
      (∀ p, i ≤ p → p < i + k → ∀ nd f, nodes[p]? = some nd → nd.afn = some f →
        signalAt nodes1 p = f (weightedSum
          (fun y => if i ≤ y ∧ y < p then signalAt nodes1 y else signalAt nodes y)
          nd.weights nd.connNodes)) ∧
      (∀ j, j < k → outs[j]? = some (signalAt nodes1 (i + j))) := by
  induction k generalizing i nodes with
  | zero =>
    refine ⟨nodes, [], rfl, sameTopology_refl _, rfl, fun _ _ => rfl, ?_, ?_⟩
    · intro p h1 h2; omega
    · intro j hj; omega
  | succ k ih =>
    have hi := hev i (Nat.le_refl _) (by omega)
    have hilt := evaluable_lt hi
    rcases (evaluable_iff nodes i).mp hi with ⟨nd, f, hnd, hf, hc⟩
    have hout := Output_ok nodes i nd f hnd hf hc
    set v := f (weightedSum (signalAt nodes) nd.weights nd.connNodes) with hv
    set nodesA := nodes.set i { nd with signal := v } with hA
    have hST : SameTopology nodes nodesA := sameTopology_set nodes i nd v hnd
    have hev1 : ∀ p, i + 1 ≤ p → p < i + 1 + k → evaluable nodesA p = true := by
      intro p h1 h2
      rw [evaluable_congr hST]
      exact hev p (by omega) (by omega)
    rcases ih (i + 1) nodesA hev1 with ⟨nodes1, outs, hloop, hST1, hlen, hframe, hval, houts⟩
    have hAi : nodes1[i]? = nodesA[i]? := hframe i (Or.inl (Nat.lt_succ_self i))
    have hsig_i : signalAt nodes1 i = v := by
      rw [signalAt_congr hAi, hA, signalAt_set_eq _ _ _ hilt]
    refine ⟨nodes1, v :: outs, ?_, sameTopology_trans hST hST1, by simp [hlen], ?_, ?_, ?_⟩
    · simp only [outputLoop, hilt, if_true, hout, hloop]
    · intro q hq
      have hqi : i ≠ q := by omega
      rw [hframe q (by omega), hA, List.getElem?_set_ne hqi]
    · intro p h1 h2 nd2 f2 hnd2 hf2
      by_cases hpi : p = i
      · subst hpi
        rw [hnd] at hnd2
        cases hnd2
        rw [hf] at hf2
        cases hf2
        rw [hsig_i, hv]
        congr 1
        have : (fun y => if p ≤ y ∧ y < p then signalAt nodes1 y else signalAt nodes y)
            = signalAt nodes := by
          funext y
          have : ¬ (p ≤ y ∧ y < p) := by omega
          simp [this]
        rw [this]
      · have hne : i ≠ p := fun h => hpi h.symm
        have hndA : nodesA[p]? = some nd2 := by
          rw [hA, List.getElem?_set_ne hne]; exact hnd2
        rw [hval p (by omega) (by omega) nd2 f2 hndA hf2]
        congr 1
        have : (fun y => if i + 1 ≤ y ∧ y < p then signalAt nodes1 y else signalAt nodesA y)
            = (fun y => if i ≤ y ∧ y < p then signalAt nodes1 y else signalAt nodes y) := by
          funext y
          by_cases hy1 : i + 1 ≤ y ∧ y < p
          · have hy2 : i ≤ y ∧ y < p := ⟨by omega, hy1.2⟩
            rw [if_pos hy1, if_pos hy2]
          · by_cases hyi : y = i
            · subst hyi
              have hy2 : y ≤ y ∧ y < p := ⟨Nat.le_refl _, by omega⟩
              rw [if_neg hy1, if_pos hy2]
              exact (signalAt_congr hAi).symm
            · have hy2 : ¬ (i ≤ y ∧ y < p) := by omega
              have hne2 : i ≠ y := fun h => hyi h.symm
              rw [if_neg hy1, if_neg hy2, hA, signalAt_set_ne _ _ _ _ hne2]
        rw [this]
    · intro j hj
      cases j with
      | zero => simp [hsig_i]
      | succ j =>
        have := houts j (by omega)
        simp only [List.getElem?_cons_succ, this]
        congr 2
        omega

/-- Whenever the pass returns, every node of its range was evaluable. -/
theorem outputLoop_ok_inv [Zero α] [Add α] [Mul α] (k i : Nat) (nodes : List (Node α))
    (r : List (Node α) × List α) (h : outputLoop k i nodes = .ok r) :
    ∀ p, i ≤ p → p < i + k → evaluable nodes p = true := by
  induction k generalizing i nodes r with
  | zero => intro p h1 h2; omega
  | succ k ih =>
    intro p h1 h2
    simp only [outputLoop] at h
    by_cases hilt : i < nodes.length
    · simp only [hilt, if_true] at h
      cases ho : Node.Output nodes i with
      | error e => simp [ho] at h
      | ok r1 =>
        obtain ⟨nodesA, v⟩ := r1
        simp only [ho] at h
        rcases Output_ok_inv nodes nodesA i v ho with ⟨nd, f, hnd, hf, hc, -, hA⟩
        by_cases hpi : p = i
        · subst hpi
          exact (evaluable_iff nodes p).mpr ⟨nd, f, hnd, hf, hc⟩
        · cases hl : outputLoop k (i + 1) nodesA with
          | error e => simp [hl] at h
          | ok r2 =>
            have := ih (i + 1) nodesA r2 hl p (by omega) (by omega)
            have hST : SameTopology nodes nodesA := by
              rw [hA]; exact sameTopology_set nodes i nd v hnd
            rw [evaluable_congr hST] at this
            exact this
    · simp [hilt] at h

theorem evaluableFrom_iff (S : Nat) (n : Network α) :
    n.evaluableFrom S = true ↔
      ∀ p, S ≤ p → p < n.nodes.length → evaluable n.nodes p = true := by
  unfold Network.evaluableFrom
  rw [List.all_eq_true]
  constructor
  · intro h p h1 h2
    have := h p (List.mem_range.mpr h2)
    simp only [Bool.or_eq_true, decide_eq_true_eq] at this
    rcases this with h3 | h3
    · omega
    · exact h3
  · intro h p hp
    have h2 := List.mem_range.mp hp
    simp only [Bool.or_eq_true, decide_eq_true_eq]
    by_cases h1 : p < S
    · exact Or.inl h1
    · exact Or.inr (h p (by omega) h2)

/-- The loop that registers the inputs: it completes when the positions exist,
writes `inputs[q]` to the signal at every position `q` of its range and changes
nothing else. -/
theorem sensorLoop_spec (inputs : List α) (k i : Nat) (nodes : List (Node α))
    (hlen : i + k ≤ nodes.length) (hin : i + k ≤ inputs.length) :
    ∃ nodes1, sensorLoop inputs k i nodes = .ok nodes1 ∧ SameTopology nodes nodes1 ∧
      (∀ q, i ≤ q → q < i + k → nodes1[q]?.map Node.signal = inputs[q]?) ∧
      (∀ q, (q < i ∨ i + k ≤ q) → nodes1[q]? = nodes[q]?) := by
  induction k generalizing i nodes with
  | zero =>
    refine ⟨nodes, rfl, sameTopology_refl _, ?_, fun _ _ => rfl⟩
    intro q h1 h2; omega
  | succ k ih =>
    have hi : i < nodes.length := by omega
    have hi2 : i < inputs.length := by omega
    have hnd : nodes[i]? = some nodes[i] := List.getElem?_eq_getElem hi
    have hx : inputs[i]? = some inputs[i] := List.getElem?_eq_getElem hi2
    set nodesA := nodes.set i { nodes[i] with signal := inputs[i] } with hA
    have hST : SameTopology nodes nodesA := sameTopology_set nodes i nodes[i] inputs[i] hnd
    rcases ih (i + 1) nodesA (by rw [← hST.1]; omega) (by omega) with
      ⟨nodes1, hloop, hST1, hval, hframe⟩
    refine ⟨nodes1, ?_, sameTopology_trans hST hST1, ?_, ?_⟩
    · simp only [sensorLoop, hnd, hx]
      exact hloop
    · intro q h1 h2
      by_cases hqi : q = i
      · subst hqi
        rw [hframe q (Or.inl (Nat.lt_succ_self q)), hA, List.getElem?_set_self hi, hx]
        rfl
      · exact hval q (by omega) (by omega)
    · intro q hq
      have hqi : i ≠ q := by omega
      rw [hframe q (by omega), hA, List.getElem?_set_ne hqi]

theorem sensorLoop_ok_inv (inputs : List α) (k i : Nat) (nodes r : List (Node α))
    (h : sensorLoop inputs k i nodes = .ok r) : k = 0 ∨ i + k ≤ nodes.length := by
  induction k generalizing i nodes with
  | zero => exact Or.inl rfl
  | succ k ih =>
    right
    simp only [sensorLoop] at h
    cases hnd : nodes[i]? with
    | none => simp [hnd] at h
    | some nd =>
      cases hx : inputs[i]? with
      | none => simp [hnd, hx] at h
      | some x =>
        simp only [hnd, hx] at h
        have hi : i < nodes.length := (List.getElem?_eq_some_iff.mp hnd).1
        rcases ih (i + 1) _ h with h0 | h1
        · omega
        · simp only [List.length_set] at h1
          omega

/-- A call of `Network.Activate` with `S` inputs on a network of at least
`S + O` nodes whose outputs and hidden nodes are evaluable completes. -/
theorem Activate_trace [Zero α] [Add α] [Mul α] (S O : Nat) (n : Network α) (inputs : List α)
    (hin : inputs.length = S) (hlen : S + O ≤ n.nodes.length)
    (hev : n.evaluableFrom S = true) :
    ∃ nodes1 nodes2 nodes3 outs, ActivateTrace S O n inputs nodes1 nodes2 nodes3 outs := by
  have hev0 := (evaluableFrom_iff S n).mp hev
  rcases sensorLoop_spec inputs S 0 n.nodes (by omega) (by omega) with ⟨nodes1, h1, hT1, -, -⟩
  have hev1 : ∀ p, S + O ≤ p → p < S + O + (n.nodes.length - (S + O)) →
      evaluable nodes1 p = true := by
    intro p hp1 hp2
    rw [evaluable_congr hT1]
    exact hev0 p (by omega) (by omega)
  rcases outputLoop_spec _ _ nodes1 hev1 with ⟨nodes2, vs, h2, hT2, -, -, -, -⟩
  have hev2 : ∀ p, S ≤ p → p < S + O → evaluable nodes2 p = true := by
    intro p hp1 hp2
    rw [evaluable_congr hT2, evaluable_congr hT1]
    exact hev0 p hp1 (by omega)
  rcases outputLoop_spec _ _ nodes2 hev2 with ⟨nodes3, outs, h3, hT3, -, -, -, -⟩
  refine ⟨nodes1, nodes2, nodes3, outs, ⟨?_, h1, ⟨vs, h2⟩, h3, hT1, hT2, hT3⟩⟩
  unfold Network.Activate
  have hl : nodes1.length = n.nodes.length := hT1.1.symm
  simp only [hin, ne_eq, not_true_eq_false, if_false, h1, hl, h2, h3]

/-- Whenever `Network.Activate` returns outputs, the call had `S` inputs, the
network at least `S + O` nodes, and its outputs and hidden nodes were evaluable. -/
theorem Activate_ok_inv [Zero α] [Add α] [Mul α] (S O : Nat) (n n1 : Network α)
    (inputs outs : List α) (h : n.Activate S O inputs = .ok n1 outs) :
    inputs.length = S ∧ S + O ≤ n.nodes.length ∧ n.evaluableFrom S = true := by
  unfold Network.Activate at h
  by_cases hin : inputs.length = S
  · simp only [hin, ne_eq, not_true_eq_false, if_false] at h
    cases h1 : sensorLoop inputs S 0 n.nodes with
    | error e => simp [h1] at h
    | ok nodes1 =>
      simp only [h1] at h
      have hS : S ≤ n.nodes.length := by
        rcases sensorLoop_ok_inv inputs S 0 n.nodes nodes1 h1 with h0 | h0 <;> omega
      rcases sensorLoop_spec inputs S 0 n.nodes (by omega) (by omega) with ⟨m, hm, hT1, -, -⟩
      rw [h1] at hm
      cases hm
      cases h2 : outputLoop (nodes1.length - (S + O)) (S + O) nodes1 with
      | error e => simp [h2] at h
      | ok r2 =>
        obtain ⟨nodes2, vs⟩ := r2
        simp only [h2] at h
        have hev1 := outputLoop_ok_inv _ _ _ _ h2
        rcases outputLoop_spec _ _ nodes1 hev1 with ⟨m2, vs2, hm2, hT2, -, -, -, -⟩
        rw [h2] at hm2
        cases hm2
        cases h3 : outputLoop O S nodes2 with
        | error e => simp [h3] at h
        | ok r3 =>
          have hev2 := outputLoop_ok_inv _ _ _ _ h3
          have hlen : S + O ≤ n.nodes.length := by
            by_cases hO : O = 0
            · omega
            · have := evaluable_lt (hev2 (S + O - 1) (by omega) (by omega))
              rw [← hT2.1, ← hT1.1] at this
              omega
          refine ⟨hin, hlen, (evaluableFrom_iff S n).mpr ?_⟩
          intro p hp1 hp2
          by_cases hp : p < S + O
          · have := hev2 p hp1 hp
            rw [evaluable_congr hT2, evaluable_congr hT1] at this
            exact this
          · have := hev1 p (by omega) (by rw [← hT1.1]; omega)
            rw [evaluable_congr hT1] at this
            exact this
  · simp [hin] at h

theorem weightedSum_congr [Zero α] [Add α] [Mul α] (sig1 sig2 : Nat → α) (w : WeightMap α)
    (conn : List Nat) (h : ∀ y ∈ conn, sig1 y = sig2 y) :
    weightedSum sig1 w conn = weightedSum sig2 w conn := by
  unfold weightedSum
  generalize (0 : α) = acc
  induction conn generalizing acc with
  | nil => rfl
  | cons y rest ih =>
    simp only [List.foldl_cons]
    rw [h y (List.mem_cons_self _ _)]
    exact ih (fun z hz => h z (List.mem_cons_of_mem _ hz)) _

theorem signalAt_eq_of_get [Zero α] {a : List (Node α)} {q : Nat} {x : α}
    (h : a[q]?.map Node.signal = some x) : signalAt a q = x := by
  unfold signalAt
  cases hq : a[q]? with
  | none => simp [hq] at h
  | some nd =>
    simp only [hq, Option.map_some', Option.some.injEq] at h
    exact h

theorem get_signal_of_lt [Zero α] {a : List (Node α)} {q : Nat} (h : q < a.length) :
    a[q]?.map Node.signal = some (signalAt a q) := by
  simp [signalAt, List.getElem?_eq_getElem h]

/-- The facts of `outputLoop_spec`, for a pass known to have returned. -/
theorem outputLoop_facts [Zero α] [Add α] [Mul α] (k i : Nat) (nodes nodes1 : List (Node α))
    (outs : List α) (h : outputLoop k i nodes = .ok (nodes1, outs)) :
    SameTopology nodes nodes1 ∧ outs.length = k ∧
      (∀ q, (q < i ∨ i + k ≤ q) → nodes1[q]? = nodes[q]?) ∧
      (∀ p, i ≤ p → p < i + k → ∀ nd f, nodes[p]? = some nd → nd.afn = some f →
        signalAt nodes1 p = f (weightedSum
          (fun y => if i ≤ y ∧ y < p then signalAt nodes1 y else signalAt nodes y)
          nd.weights nd.connNodes)) ∧
      (∀ j, j < k → outs[j]? = some (signalAt nodes1 (i + j))) := by
  rcases outputLoop_spec k i nodes (outputLoop_ok_inv k i nodes _ h) with
    ⟨m, vs, hm, h1, h2, h3, h4, h5⟩
  rw [h] at hm
  cases hm
  exact ⟨h1, h2, h3, h4, h5⟩

/-- The calls of a pass: the `j`-th collected value is what `Node.Output`
returned for position `i + j`, in a state in which the positions before `i + j`
hold what they hold after the pass and all others what they held before it. -/
theorem outputLoop_calls [Zero α] [Add α] [Mul α] (k i : Nat) (nodes nodes1 : List (Node α))
    (outs : List α) (h : outputLoop k i nodes = .ok (nodes1, outs)) :
    ∀ j, j < k → ∃ m m1 v, outs[j]? = some v ∧ Node.Output m (i + j) = .ok (m1, v) ∧
      (∀ q, q < i + j → m[q]? = nodes1[q]?) ∧ (∀ q, i + j ≤ q → m[q]? = nodes[q]?) ∧
      m1[i + j]? = nodes1[i + j]? := by
  induction k generalizing i nodes outs with
  | zero => intro j hj; omega
  | succ k ih =>
    intro j hj
    have hall := h
    simp only [outputLoop] at h
    by_cases hilt : i < nodes.length
    · simp only [hilt, if_true] at h
      cases ho : Node.Output nodes i with
      | error e => simp [ho] at h
      | ok r1 =>
        obtain ⟨nodesA, v⟩ := r1
        simp only [ho] at h
        cases hl : outputLoop k (i + 1) nodesA with
        | error e => simp [hl] at h
        | ok r2 =>
          obtain ⟨nodesB, vs⟩ := r2
          simp only [hl, Except.ok.injEq, Prod.mk.injEq] at h
          obtain ⟨hB, hvs⟩ := h
          subst hB
          subst hvs
          rcases Output_ok_inv nodes nodesA i v ho with ⟨nd, f, hnd, hf, hc, -, hA⟩
          rcases outputLoop_facts k (i + 1) nodesA nodesB vs hl with ⟨-, -, hframe, -, -⟩
          cases j with
          | zero =>
            refine ⟨nodes, nodesA, v, by simp, by simpa using ho, ?_, fun _ _ => rfl, ?_⟩
            · intro q hq
              have hqi : i ≠ q := by omega
              rw [hframe q (by omega), hA, List.getElem?_set_ne hqi]
            · exact (hframe (i + 0) (by omega)).symm
          | succ j =>
            rcases ih (i + 1) nodesA vs hl j (by omega) with ⟨m, m1, w, h1, h2, h3, h4, h5⟩
            have he : i + 1 + j = i + (j + 1) := by omega
            rw [he] at h2 h3 h4 h5
            refine ⟨m, m1, w, by simpa using h1, h2, h3, ?_, h5⟩
            intro q hq
            have hqi : i ≠ q := by omega
            rw [h4 q hq, hA, List.getElem?_set_ne hqi]
    · simp [hilt] at h

theorem sensorLoop_facts (inputs : List α) (S : Nat) (nodes nodes1 : List (Node α))
    (hlen : S ≤ nodes.length) (hin : inputs.length = S)
    (h : sensorLoop inputs S 0 nodes = .ok nodes1) :
    (∀ q, q < S → nodes1[q]?.map Node.signal = inputs[q]?) ∧
      (∀ q, S ≤ q → nodes1[q]? = nodes[q]?) := by
  rcases sensorLoop_spec inputs S 0 nodes (by omega) (by omega) with ⟨m, hm, -, h1, h2⟩
  rw [h] at hm
  cases hm
  exact ⟨fun q hq => h1 q (Nat.zero_le _) (by omega), fun q hq => h2 q (Or.inr (by omega))⟩

/-- Every ok result of `Network.Activate` comes with its three stages. -/
theorem Activate_ok_trace [Zero α] [Add α] [Mul α] (S O : Nat) (n n1 : Network α)
    (inputs outs : List α) (h : n.Activate S O inputs = .ok n1 outs) :
    inputs.length = S ∧ S + O ≤ n.nodes.length ∧ n.evaluableFrom S = true ∧
      ∃ nodes1 nodes2, ActivateTrace S O n inputs nodes1 nodes2 n1.nodes outs := by
  rcases Activate_ok_inv S O n n1 inputs outs h with ⟨hin, hlen, hev⟩
  rcases Activate_trace S O n inputs hin hlen hev with ⟨nodes1, nodes2, nodes3, outs3, t⟩
  have := t.result
  rw [h] at this
  simp only [Result.ok.injEq] at this
  obtain ⟨h1, h2⟩ := this
  subst h1
  subst h2
  exact ⟨hin, hlen, hev, nodes1, nodes2, t⟩

theorem Activate_err_inv [Zero α] [Add α] [Mul α] (S O : Nat) (n n1 : Network α)
    (inputs : List α) (msg : String) (h : n.Activate S O inputs = .err n1 msg) :
    n1 = n ∧ inputs.length ≠ S := by
  unfold Network.Activate at h
  by_cases hin : inputs.length = S
  · simp only [hin, ne_eq, not_true_eq_false, if_false] at h
    cases h1 : sensorLoop inputs S 0 n.nodes with
    | error e => simp [h1] at h
    | ok nodes1 =>
      simp only [h1] at h
      cases h2 : outputLoop (nodes1.length - (S + O)) (S + O) nodes1 with
      | error e => simp [h2] at h
      | ok r2 =>
        obtain ⟨nodes2, vs⟩ := r2
        simp only [h2] at h
        cases h3 : outputLoop O S nodes2 with
        | error e => simp [h3] at h
        | ok r3 => simp [h3] at h
  · simp only [ne_eq, hin, not_false_eq_true, if_true, Result.err.injEq] at h
    exact ⟨h.1.symm, hin⟩

theorem Activate_ok_sameTopology [Zero α] [Add α] [Mul α] (S O : Nat) (n n1 : Network α)
    (inputs outs : List α) (h : n.Activate S O inputs = .ok n1 outs) :
    SameTopology n.nodes n1.nodes := by
  obtain ⟨-, -, -, nodes1, nodes2, t⟩ := Activate_ok_trace S O n n1 inputs outs h
  exact sameTopology_trans (sameTopology_trans t.top1 t.top2) t.top3

/-- The network after a call of `Activate` has the topology it had before. -/
theorem sameTopology_after [Zero α] [Add α] [Mul α] (S O : Nat) (n : Network α)
    (inputs : List α) : SameTopology n.nodes (n.after S O inputs).nodes := by
  unfold Network.after
  cases h : n.Activate S O inputs with
  | ok n1 outs => exact Activate_ok_sameTopology S O n n1 inputs outs h
  | err n1 msg =>
    simp only
    rw [(Activate_err_inv S O n n1 inputs msg h).1]
    exact sameTopology_refl _
  | panic f => exact sameTopology_refl _

/-- C1 (feed-forward correctness): on a network of exactly `S + O` nodes whose
output nodes have a resolved activation and read only sensor nodes, `Activate`
with `S` inputs returns no error and a vector of length `O` whose `j`-th entry
is the activation of node `S + j` applied to the sum, over the inbound sources
`s` of that node, of `inputs[s] * weight(s)`: the sum the Go loop forms, from
`0` and left to right in the order of the inbound sequence, with no law of
arithmetic assumed (so also when the sources are not pairwise distinct). -/
theorem activate_feedforward [Zero α] [Add α] [Mul α] (S O : Nat) (n : Network α)
    (inputs : List α) (hlen : n.nodes.length = S + O) (hin : inputs.length = S)
    (hout : ∀ nd ∈ n.nodes.drop S, nd.afn.isSome = true ∧ ∀ s ∈ nd.connNodes, s < S) :
    ∃ n1 outs, n.Activate S O inputs = .ok n1 outs ∧ outs.length = O ∧
      ∀ j, j < O → ∀ nd f, n.nodes[S + j]? = some nd → nd.afn = some f →
        outs[j]? = some (f (nd.connNodes.foldl
          (fun sum s => sum + inputs.getD s 0 * nd.weights.get s) 0)) := by
  have hmem : ∀ p nd, S ≤ p → n.nodes[p]? = some nd → nd ∈ n.nodes.drop S := by
    intro p nd hp hnd
    have : (n.nodes.drop S)[p - S]? = some nd := by
      rw [List.getElem?_drop]
      have : S + (p - S) = p := by omega
      rw [this, hnd]
    exact List.getElem?_mem this
  have hev : n.evaluableFrom S = true := by
    rw [evaluableFrom_iff]
    intro p hp1 hp2
    have hnd : n.nodes[p]? = some n.nodes[p] := List.getElem?_eq_getElem hp2
    have h := hout _ (hmem p _ hp1 hnd)
    rcases Option.isSome_iff_exists.mp h.1 with ⟨f, hf⟩
    exact (evaluable_iff _ _).mpr ⟨_, f, hnd, hf, fun q hq => by have := h.2 q hq; omega⟩
  rcases Activate_trace S O n inputs hin (by omega) hev with ⟨nodes1, nodes2, nodes3, outs, t⟩
  rcases sensorLoop_facts inputs S n.nodes nodes1 (by omega) hin t.sensors with ⟨hs1, hs2⟩
  rcases t.hidden with ⟨vs, hh⟩
  rcases outputLoop_facts _ _ _ _ _ hh with ⟨-, -, hframe2, -, -⟩
  rcases outputLoop_facts _ _ _ _ _ t.outputs with ⟨-, holen, -, hval3, houts⟩
  refine ⟨{ nodes := nodes3 }, outs, t.result, holen, ?_⟩
  intro j hj nd f hnd hf
  have hp : S + j < n.nodes.length := by omega
  have hp2 : S + j < nodes2.length := by rw [← t.top2.1, ← t.top1.1]; exact hp
  have hnd2 : nodes2[S + j]? = some nodes2[S + j] := List.getElem?_eq_getElem hp2
  have hp1 : S + j < nodes1.length := by rw [← t.top1.1]; exact hp
  have hnd1 : nodes1[S + j]? = some nodes1[S + j] := List.getElem?_eq_getElem hp1
  have hT := nodeSameTopology_trans (t.top1.2 _ _ _ hnd hnd1) (t.top2.2 _ _ _ hnd1 hnd2)
  have hf2 : nodes2[S + j].afn = some f := by rw [← hT.2.2.2, hf]
  rw [houts j hj, hval3 (S + j) (by omega) (by omega) _ f hnd2 hf2, ← hT.2.1, ← hT.2.2.1]
  congr 2
  have hprops := hout nd (hmem (S + j) nd (by omega) hnd)
  rw [weightedSum_congr _ (fun s => inputs.getD s 0) nd.weights nd.connNodes]
  · rfl
  · intro y hy
    have hyS : y < S := hprops.2 y hy
    have hc : ¬ (S ≤ y ∧ y < S + j) := by omega
    rw [if_neg hc]
    have e2 : nodes2[y]? = nodes1[y]? := hframe2 y (Or.inl (by omega))
    rw [signalAt_congr e2]
    have hy2 : y < inputs.length := by omega
    have := hs1 y hyS
    rw [List.getElem?_eq_getElem hy2] at this
    rw [signalAt_eq_of_get this, List.getD_eq_getElem _ _ hy2]

/-- Witness of C1, the example of the specification: `Activate([1, 3])` on
`ffNet` returns `[1*1 + 3*2] = [7]`. -/
theorem activate_feedforward_witness :
    ∃ n1, ffNet.Activate 2 1 [1, 3] = .ok n1 [7] := by
  obtain ⟨n1, outs, h, hl, hv⟩ :=
    activate_feedforward 2 1 ffNet [1, 3] (by decide) (by decide) (by decide)
  have h0 := hv 0 (by decide) _ (fun x => x) rfl rfl
  refine ⟨n1, ?_⟩
  rw [h]
  congr 1
  match outs, hl, h0 with
  | [v], _, h0 =>
    have : v = 7 := (Option.some.inj h0).trans (by decide)
    rw [this]

/-- C2 (`Node.Output`): for a node `n` at position `p` with resolved activation
`f`, whatever the signals are, `Output` sets the signal of `n` to `f` of the sum
over the entries `s` of its inbound sequence of `s.signal * weight(s)`, the
signals being those held at call time (the own old signal included when `p` is
among the entries), and returns that new signal; the sum is the one the Go loop
forms, from `0` and left to right over the inbound sequence, with no law of
arithmetic assumed; with an empty inbound sequence the result is `f 0`. -/
theorem node_output_spec [Zero α] [Add α] [Mul α] (nodes : List (Node α)) (p : Nat) (n : Node α)
    (f : α → α) (hp : nodes[p]? = some n) (hf : n.afn = some f)
    (hc : ∀ q ∈ n.connNodes, q < nodes.length) :
    Node.Output nodes p =
        .ok (nodes.set p { n with
               signal := f (n.connNodes.foldl
                 (fun sum s => sum + signalAt nodes s * n.weights.get s) 0) },
             f (n.connNodes.foldl (fun sum s => sum + signalAt nodes s * n.weights.get s) 0)) ∧
      (n.connNodes = [] →
        Node.Output nodes p = .ok (nodes.set p { n with signal := f 0 }, f 0)) := by
  have h := Output_ok nodes p n f hp hf hc
  refine ⟨h, ?_⟩
  intro he
  rw [h]
  simp only [weightedSum, he, List.foldl_nil]

/-- Witness of C2: on `ffLoaded` (signals 1, 3, 0) the output node (position 2)
gets `1*1 + 3*2 = 7`. -/
theorem node_output_spec_witness :
    ∃ nodes1, Node.Output ffLoaded 2 = .ok (nodes1, (7 : ℤ)) :=
  ⟨_, (node_output_spec ffLoaded 2 _ (fun x => x) rfl rfl (by decide)).1⟩

/-- C3 (input-length validation): with an input vector whose length is not `S`,
`Activate` returns the error and no outputs, the network (every signal) is as
before the call, and a following call behaves as on the original network. -/
theorem activate_invalid_input [Zero α] [Add α] [Mul α] (S O : Nat) (n : Network α)
    (inputs : List α) (h : inputs.length ≠ S) :
    n.Activate S O inputs = .err n "Invalid number of sensors" ∧
      n.outputsOf S O inputs = none ∧ n.after S O inputs = n ∧
      ∀ inputs2, (n.after S O inputs).Activate S O inputs2 = n.Activate S O inputs2 := by
  have h1 : n.Activate S O inputs = .err n "Invalid number of sensors" := by
    unfold Network.Activate
    rw [if_pos h]
  have h2 : n.after S O inputs = n := by
    unfold Network.after
    rw [h1]
  refine ⟨h1, ?_, h2, ?_⟩
  · unfold Network.outputsOf
    rw [h1]
  · intro inputs2
    rw [h2]

/-- Witness of C3: `ffNet` expects 2 inputs and is given 1. -/
theorem activate_invalid_input_witness :
    ffNet.Activate 2 1 [5] = .err ffNet "Invalid number of sensors" :=
  (activate_invalid_input 2 1 ffNet [5] (by decide)).1

/-- C4 (sensor bypass): on a network of at least `S + O` nodes and with `S`
inputs, whenever `Activate` returns, the signal at every position `i < S` is
`inputs[i]` itself, whatever the inbound sequence and the activation of that
node; and it does return when the output and hidden nodes are evaluable. -/
theorem activate_sensor_bypass [Zero α] [Add α] [Mul α] (S O : Nat) (n : Network α)
    (inputs : List α) (hlen : S + O ≤ n.nodes.length) (hin : inputs.length = S) :
    (n.evaluableFrom S = true → ∃ n1 outs, n.Activate S O inputs = .ok n1 outs) ∧
      ∀ n1 outs, n.Activate S O inputs = .ok n1 outs →
        ∀ i, i < S → n1.nodes[i]?.map Node.signal = inputs[i]? := by
  constructor
  · intro hev
    rcases Activate_trace S O n inputs hin hlen hev with ⟨nodes1, nodes2, nodes3, outs, t⟩
    exact ⟨_, _, t.result⟩
  · intro n1 outs h i hi
    rcases Activate_ok_trace S O n n1 inputs outs h with ⟨-, -, -, nodes1, nodes2, t⟩
    rcases sensorLoop_facts inputs S n.nodes nodes1 (by omega) hin t.sensors with ⟨hs1, -⟩
    rcases t.hidden with ⟨vs, hh⟩
    rcases outputLoop_facts _ _ _ _ _ hh with ⟨-, -, hframe2, -, -⟩
    rcases outputLoop_facts _ _ _ _ _ t.outputs with ⟨-, -, hframe3, -, -⟩
    rw [hframe3 i (Or.inl hi), hframe2 i (Or.inl (by omega))]
    exact hs1 i hi

/-- Witness of C4 on `ffNet`: after `Activate([1, 3])` the sensors hold 1 and 3. -/
theorem activate_sensor_bypass_witness :
    ∃ n1 outs, ffNet.Activate 2 1 [1, 3] = .ok n1 outs ∧
      n1.nodes[0]?.map Node.signal = some 1 ∧ n1.nodes[1]?.map Node.signal = some 3 := by
  have h := activate_sensor_bypass 2 1 ffNet [1, 3] (by decide) (by decide)
  obtain ⟨n1, outs, hr⟩ := h.1 (by decide)
  exact ⟨n1, outs, hr, h.2 n1 outs hr 0 (by decide), h.2 n1 outs hr 1 (by decide)⟩

/-- C5 (result vector): on a network of at least `S + O` nodes and with `S`
inputs, whenever `Activate` returns, the vector has length exactly `O`, its
`j`-th entry is the value `Output` returned for the node at position `S + j`
(called in a state that differs from the final one at most at the outputs from
`S + j` on), and that entry is the signal the node holds after the call; and
`Activate` does return when the output and hidden nodes are evaluable. -/
theorem activate_outputs [Zero α] [Add α] [Mul α] (S O : Nat) (n : Network α)
    (inputs : List α) (hlen : S + O ≤ n.nodes.length) (hin : inputs.length = S) :
    (n.evaluableFrom S = true → ∃ n1 outs, n.Activate S O inputs = .ok n1 outs) ∧
      ∀ n1 outs, n.Activate S O inputs = .ok n1 outs → outs.length = O ∧
        ∀ j, j < O → ∃ v, outs[j]? = some v ∧ n1.nodes[S + j]?.map Node.signal = some v ∧
          ∃ m m1, (∀ q, (q < S + j ∨ S + O ≤ q) → m[q]? = n1.nodes[q]?) ∧
            Node.Output m (S + j) = .ok (m1, v) := by
  constructor
  · intro hev
    rcases Activate_trace S O n inputs hin hlen hev with ⟨nodes1, nodes2, nodes3, outs, t⟩
    exact ⟨_, _, t.result⟩
  · intro n1 outs h
    rcases Activate_ok_trace S O n n1 inputs outs h with ⟨-, -, -, nodes1, nodes2, t⟩
    rcases outputLoop_facts _ _ _ _ _ t.outputs with ⟨-, holen, hframe3, -, houts⟩
    refine ⟨holen, ?_⟩
    intro j hj
    rcases outputLoop_calls _ _ _ _ _ t.outputs j hj with ⟨m, m1, v, h1, h2, h3, h4, -⟩
    have hp : S + j < n1.nodes.length := by
      rw [← t.top3.1, ← t.top2.1, ← t.top1.1]; omega
    have hv : v = signalAt n1.nodes (S + j) := by
      have := houts j hj
      rw [h1] at this
      exact Option.some.inj this
    refine ⟨v, h1, ?_, m, m1, ?_, h2⟩
    · rw [hv]
      exact get_signal_of_lt hp
    · intro q hq
      rcases hq with hq | hq
      · exact h3 q hq
      · rw [h4 q (by omega), hframe3 q (Or.inr hq)]

/-- Witness of C5 on `ffNet`: one output, equal to the signal at position 2. -/
theorem activate_outputs_witness :
    ∃ n1 outs, ffNet.Activate 2 1 [1, 3] = .ok n1 outs ∧ outs.length = 1 ∧
      outs[0]? = n1.nodes[2]?.map Node.signal := by
  have h := activate_outputs 2 1 ffNet [1, 3] (by decide) (by decide)
  obtain ⟨n1, outs, hr⟩ := h.1 (by decide)
  obtain ⟨hl, hv⟩ := h.2 n1 outs hr
  obtain ⟨v, h1, h2, -⟩ := hv 0 (by decide)
  exact ⟨n1, outs, hr, hl, by rw [h1, ← h2]⟩

/-- C10 (recurrent stale read): on a network of at least `S + O` nodes and with
`S` inputs, whenever `Activate` returns, a hidden node `H` (position
`p ≥ S + O`, activation `f`) whose inbound sources are all output nodes holds
`f` of the sum over its inbound entries `y` of (the signal of `y` before the
call) times `weight(y)`, the sum being the one the Go loop forms, from `0` and
left to right over the inbound sequence, with no law of arithmetic assumed; and
`Activate` does return when the output and hidden nodes are evaluable. -/
theorem activate_stale_read [Zero α] [Add α] [Mul α] (S O : Nat) (n : Network α)
    (inputs : List α) (hlen : S + O ≤ n.nodes.length) (hin : inputs.length = S)
    (p : Nat) (H : Node α) (f : α → α) (hp : S + O ≤ p)
    (hH : n.nodes[p]? = some H) (hf : H.afn = some f)
    (hsrc : ∀ y ∈ H.connNodes, S ≤ y ∧ y < S + O) :
    (n.evaluableFrom S = true → ∃ n1 outs, n.Activate S O inputs = .ok n1 outs) ∧
      ∀ n1 outs, n.Activate S O inputs = .ok n1 outs →
        n1.nodes[p]?.map Node.signal =
          some (f (H.connNodes.foldl
            (fun sum y => sum + signalAt n.nodes y * H.weights.get y) 0)) := by
  constructor
  · intro hev
    rcases Activate_trace S O n inputs hin hlen hev with ⟨nodes1, nodes2, nodes3, outs, t⟩
    exact ⟨_, _, t.result⟩
  · intro n1 outs h
    rcases Activate_ok_trace S O n n1 inputs outs h with ⟨-, -, -, nodes1, nodes2, t⟩
    rcases sensorLoop_facts inputs S n.nodes nodes1 (by omega) hin t.sensors with ⟨-, hs2⟩
    rcases t.hidden with ⟨vs, hh⟩
    rcases outputLoop_facts _ _ _ _ _ hh with ⟨-, -, -, hval2, -⟩
    rcases outputLoop_facts _ _ _ _ _ t.outputs with ⟨-, -, hframe3, -, -⟩
    have hplt : p < n.nodes.length := (List.getElem?_eq_some_iff.mp hH).1
    have hp2 : p < nodes2.length := by rw [← t.top2.1, ← t.top1.1]; exact hplt
    have hH1 : nodes1[p]? = some H := by rw [hs2 p (by omega)]; exact hH
    rw [hframe3 p (Or.inr hp), get_signal_of_lt hp2,
      hval2 p hp (by omega) H f hH1 hf]
    congr 2
    apply weightedSum_congr
    intro y hy
    have hyr := hsrc y hy
    have hc : ¬ (S + O ≤ y ∧ y < p) := by omega
    rw [if_neg hc]
    exact signalAt_congr (hs2 y hyr.1)

/-- Witness of C10, the example of the specification: on the freshly decoded
network `Activate([5])` leaves `H = 0` and `Y = 5`, and the following
`Activate([9])` leaves `H = 5` and `Y = 9`. -/
theorem activate_stale_read_witness :
    (∃ n1 outs, (NewNetwork staleGenome).2.Activate 1 1 [5] = .ok n1 outs ∧
        n1.nodes[2]?.map Node.signal = some 0) ∧
      ((NewNetwork staleGenome).2.after 1 1 [5]).nodes.map Node.signal = [5, 5, 0] ∧
      (∃ n2 outs, ((NewNetwork staleGenome).2.after 1 1 [5]).Activate 1 1 [9] = .ok n2 outs ∧
        n2.nodes[2]?.map Node.signal = some 5) ∧
      (((NewNetwork staleGenome).2.after 1 1 [5]).after 1 1 [9]).nodes.map Node.signal
        = [9, 9, 5] := by
  have h1 := activate_stale_read 1 1 (NewNetwork staleGenome).2 [5] (by decide) (by decide)
      2 _ (fun x => x) (by decide) rfl rfl (by decide)
  have h2 := activate_stale_read 1 1 ((NewNetwork staleGenome).2.after 1 1 [5]) [9]
      (by decide) (by decide) 2 _ (fun x => x) (by decide) rfl rfl (by decide)
  obtain ⟨n1, o1, hr1⟩ := h1.1 (by decide)
  obtain ⟨n2, o2, hr2⟩ := h2.1 (by decide)
  exact ⟨⟨n1, o1, hr1, h1.2 n1 o1 hr1⟩, by decide, ⟨n2, o2, hr2, h2.2 n2 o2 hr2⟩, by decide⟩

theorem isSorted_iff (l : List (NodeGene α)) : IsSorted l = true ↔ l.Sorted byNID.le := by
  induction l with
  | nil => simp [IsSorted]
  | cons a rest ih =>
    cases rest with
    | nil => simp [IsSorted]
    | cons b rest =>
      simp only [IsSorted, byNID.Less, Bool.and_eq_true, Bool.not_eq_true', decide_eq_false_iff_not,
        ih, not_lt]
      constructor
      · rintro ⟨h1, h2⟩
        refine List.Sorted.cons ?_ h2
        exact h1
      · intro h
        have h2 := List.Sorted.of_cons h
        exact ⟨List.rel_of_sorted_cons h b (List.mem_cons_self _ _), h2⟩

theorem sortedNodes_sorted (g : Genome α) : (sortedNodes g).Sorted byNID.le := by
  unfold sortedNodes
  by_cases h : IsSorted g.nodes = true
  · simp only [h, Bool.not_true, Bool.false_eq_true, if_false]
    exact (isSorted_iff _).mp h
  · have h2 : IsSorted g.nodes = false := by simpa using h
    simp only [h2, Bool.not_false, if_true]
    exact List.sorted_insertionSort _ _

theorem sortedNodes_perm (g : Genome α) : (sortedNodes g).Perm g.nodes := by
  unfold sortedNodes
  by_cases h : IsSorted g.nodes = true
  · simp only [h, Bool.not_true, Bool.false_eq_true, if_false]
    exact List.Perm.refl _
  · have h2 : IsSorted g.nodes = false := by simpa using h
    simp only [h2, Bool.not_false, if_true]
    exact List.perm_insertionSort _ _

/-- Binary search: for a predicate that is monotone on `[0, n)`, the loop ends
at the least position where it holds (`n` if there is none). -/
theorem searchLoop_spec (f : Nat → Bool) (n : Nat)
    (hmono : ∀ a b, a ≤ b → b < n → f a = true → f b = true) :
    ∀ fuel i j, i ≤ j → j ≤ n → j - i ≤ fuel → (∀ a, a < i → f a = false) →
      (j < n → f j = true) →
      searchLoop f fuel i j ≤ n ∧ (∀ a, a < searchLoop f fuel i j → f a = false) ∧
        (searchLoop f fuel i j < n → f (searchLoop f fuel i j) = true) := by
  intro fuel
  induction fuel with
  | zero =>
    intro i j hij hjn hfuel hlow hhigh
    have : i = j := by omega
    subst this
    simp only [searchLoop]
    exact ⟨hjn, hlow, hhigh⟩
  | succ fuel ih =>
    intro i j hij hjn hfuel hlow hhigh
    simp only [searchLoop]
    by_cases hlt : i < j
    · simp only [hlt, if_true]
      have hh1 : i ≤ (i + j) / 2 := by omega
      have hh2 : (i + j) / 2 < j := by omega
      cases hf : f ((i + j) / 2) with
      | false =>
        simp only [Bool.not_false, if_true]
        apply ih _ _ (by omega) hjn (by omega) _ hhigh
        intro a ha
        cases hfa : f a with
        | false => rfl
        | true =>
          have := hmono a ((i + j) / 2) (by omega) (by omega) hfa
          rw [hf] at this
          cases this
      | true =>
        simp only [Bool.not_true, Bool.false_eq_true, if_false]
        exact ih _ _ hh1 (by omega) (by omega) hlow (fun _ => hf)
    · simp only [hlt, if_false]
      have : i = j := by omega
      subst this
      exact ⟨hjn, hlow, hhigh⟩

/-- The fuel of `Search` is enough: once it covers the interval, more fuel does
not change the result of the loop. -/
theorem searchLoop_fuel (f : Nat → Bool) :
    ∀ fuel1 fuel2 i j, j - i ≤ fuel1 → j - i ≤ fuel2 →
      searchLoop f fuel1 i j = searchLoop f fuel2 i j := by
  intro fuel1
  induction fuel1 with
  | zero =>
    intro fuel2 i j h1 _
    have hij : ¬ i < j := by omega
    cases fuel2 with
    | zero => rfl
    | succ k => simp [searchLoop, hij]
  | succ k ih =>
    intro fuel2 i j h1 h2
    by_cases hij : i < j
    · cases fuel2 with
      | zero => omega
      | succ k2 =>
        simp only [searchLoop, hij, if_true]
        cases hf : f ((i + j) / 2) with
        | false =>
          simp only [Bool.not_false, if_true]
          exact ih k2 _ _ (by omega) (by omega)
        | true =>
          simp only [Bool.not_true, Bool.false_eq_true, if_false]
          exact ih k2 _ _ (by omega) (by omega)
    · cases fuel2 with
      | zero => simp [searchLoop, hij]
      | succ k2 => simp [searchLoop, hij]

theorem Search_spec (f : Nat → Bool) (n : Nat)
    (hmono : ∀ a b, a ≤ b → b < n → f a = true → f b = true) :
    Search n f ≤ n ∧ (∀ a, a < Search n f → f a = false) ∧
      (Search n f < n → f (Search n f) = true) := by
  unfold Search
  exact searchLoop_spec f n hmono n 0 n (Nat.zero_le _) (Nat.le_refl _) (by omega)
    (fun a ha => by omega) (fun h => by omega)

theorem nidAt_eq {nodes : List (Node α)} {i : Nat} {nd : Node α} (h : nodes[i]? = some nd) :
    nidAt nodes i = nd.nid := by
  simp [nidAt, h]

theorem nidAt_congr {a b : List (Node α)} (h : a.map Node.nid = b.map Node.nid) (i : Nat) :
    nidAt a i = nidAt b i := by
  have h2 : (a.map Node.nid)[i]? = (b.map Node.nid)[i]? := by rw [h]
  simp only [List.getElem?_map] at h2
  unfold nidAt
  cases ha : a[i]? with
  | none =>
    cases hb : b[i]? with
    | none => rfl
    | some y => simp [ha, hb] at h2
  | some x =>
    cases hb : b[i]? with
    | none => simp [ha, hb] at h2
    | some y =>
      simp only [ha, hb, Option.map_some', Option.some.injEq] at h2
      exact h2

theorem findNode_congr {a b : List (Node α)} (h : a.map Node.nid = b.map Node.nid) (id : Int) :
    findNode a id = findNode b id := by
  have hl : a.length = b.length := by
    have := congrArg List.length h
    simpa using this
  have hf : (fun i => decide (nidAt a i ≥ id)) = (fun i => decide (nidAt b i ≥ id)) := by
    funext i
    rw [nidAt_congr h i]
  unfold findNode
  simp only [hl, hf, nidAt_congr h]

/-- The guard of the lookup: a position it returns holds the id looked for. -/
theorem findNode_some {nodes : List (Node α)} {id : Int} {i : Nat}
    (h : findNode nodes id = some i) : i < nodes.length ∧ nidAt nodes i = id := by
  unfold findNode at h
  simp only at h
  split at h
  · rename_i hc
    cases h
    exact hc
  · cases h

/-- On a sequence sorted by id the lookup finds every id that is present. -/
theorem findNode_of_mem {nodes : List (Node α)} (hs : (nodes.map Node.nid).Sorted (· ≤ ·))
    {id : Int} {t : Nat} (ht : t < nodes.length) (hid : nidAt nodes t = id) :
    ∃ i, findNode nodes id = some i ∧ i ≤ t := by
  have hle : ∀ a b, a ≤ b → b < nodes.length → nidAt nodes a ≤ nidAt nodes b := by
    intro a b hab hb
    have ha : a < nodes.length := by omega
    have hma : a < (nodes.map Node.nid).length := by simpa using ha
    have hmb : b < (nodes.map Node.nid).length := by simpa using hb
    have h1 : nidAt nodes a = (nodes.map Node.nid)[a] := by
      simp [nidAt, List.getElem?_eq_getElem ha]
    have h2 : nidAt nodes b = (nodes.map Node.nid)[b] := by
      simp [nidAt, List.getElem?_eq_getElem hb]
    rw [h1, h2]
    rcases Nat.lt_or_eq_of_le hab with hlt | heq
    · exact (List.pairwise_iff_getElem.mp hs) a b _ _ hlt
    · subst heq; exact le_refl _
  have hmono : ∀ a b, a ≤ b → b < nodes.length →
      decide (nidAt nodes a ≥ id) = true → decide (nidAt nodes b ≥ id) = true := by
    intro a b hab hb ha
    simp only [ge_iff_le, decide_eq_true_eq] at ha ⊢
    exact le_trans ha (hle a b hab hb)
  obtain ⟨h1, h2, h3⟩ := Search_spec (fun i => decide (nidAt nodes i ≥ id)) nodes.length hmono
  set r := Search nodes.length (fun i => decide (nidAt nodes i ≥ id)) with hr
  have hrt : r ≤ t := by
    by_contra hc
    have := h2 t (by omega)
    simp only [ge_iff_le, decide_eq_false_iff_not, not_le] at this
    omega
  have hrlt : r < nodes.length := by omega
  have h4 := h3 hrlt
  simp only [ge_iff_le, decide_eq_true_eq] at h4
  have h5 := hle r t hrt ht
  have h6 : nidAt nodes r = id := by omega
  refine ⟨r, ?_, hrt⟩
  unfold findNode
  simp only [← hr]
  rw [if_pos ⟨hrlt, h6⟩]

theorem lookup_set (m : WeightMap α) (k q : Nat) (v : α) :
    (m.set k v).lookup q = if k = q then some v else m.lookup q := by
  induction m with
  | nil => simp [WeightMap.set, WeightMap.lookup]
  | cons x m ih =>
    obtain ⟨k1, v1⟩ := x
    simp only [WeightMap.set]
    by_cases h1 : k1 = k
    · subst h1
      simp only [if_true, WeightMap.lookup]
      by_cases h2 : k1 = q
      · simp [h2]
      · simp [h2]
    · simp only [h1, if_false, WeightMap.lookup, ih]
      by_cases h2 : k1 = q
      · have : ¬ k = q := fun h => h1 (h2.trans h.symm)
        simp [h2, this]
      · simp [h2]

theorem connect_map_nid (nodes : List (Node α)) (c : ConnGene α) :
    (connect nodes c).map Node.nid = nodes.map Node.nid := by
  unfold connect
  cases hd : c.disabled with
  | true => simp
  | false =>
    simp only [Bool.not_false, if_true]
    cases hs : findNode nodes c.src with
    | none => rfl
    | some i =>
      cases ho : findNode nodes c.out with
      | none => rfl
      | some o1 =>
        have ho1 : o1 < nodes.length := (findNode_some ho).1
        have hnd1 : nodes[o1]? = some nodes[o1] := List.getElem?_eq_getElem ho1
        simp only [hnd1]
        apply List.ext_getElem?
        intro j
        simp only [List.getElem?_map]
        by_cases hj : o1 = j
        · subst hj
          rw [List.getElem?_set_self ho1, hnd1]
          rfl
        · rw [List.getElem?_set_ne hj]

/-- One iteration of the connection loop, seen from position `o`. -/
theorem connect_get (nodes : List (Node α)) (c : ConnGene α) (o : Nat) (nd : Node α)
    (h : nodes[o]? = some nd) :
    (connect nodes c)[o]? =
      some (match wire (findNode nodes) o c with
            | none => nd
            | some x => nd.addConn x) := by
  unfold connect wire
  cases hd : c.disabled with
  | true => simp [h]
  | false =>
    simp only [Bool.not_false, if_true, Bool.false_eq_true, if_false]
    cases hs : findNode nodes c.src with
    | none => simp [h]
    | some i =>
      cases ho : findNode nodes c.out with
      | none => simp [h]
      | some o1 =>
        have ho1 : o1 < nodes.length := (findNode_some ho).1
        have hnd1 : nodes[o1]? = some nodes[o1] := List.getElem?_eq_getElem ho1
        simp only [hnd1]
        by_cases heq : o1 = o
        · subst heq
          rw [hnd1] at h
          cases h
          simp only [if_true, List.getElem?_set_self ho1]
          rfl
        · simp only [heq, if_false]
          rw [List.getElem?_set_ne heq, h]

/-- The connection loop, seen from position `o`: the node there receives, in
genome order, exactly the connections that `wire` selects for `o`. -/
theorem foldl_connect_get (pos : Int → Option Nat) (conns : List (ConnGene α)) :
    ∀ (nodes : List (Node α)) (o : Nat) (nd : Node α), findNode nodes = pos →
      nodes[o]? = some nd →
      (conns.foldl connect nodes)[o]? =
        some ((conns.filterMap (wire pos o)).foldl Node.addConn nd) := by
  induction conns with
  | nil => intro nodes o nd _ h; simpa using h
  | cons c rest ih =>
    intro nodes o nd hpos h
    have hpos2 : findNode (connect nodes c) = pos := by
      rw [← hpos]
      funext id
      exact findNode_congr (connect_map_nid nodes c) id
    have hget := connect_get nodes c o nd h
    rw [hpos] at hget
    simp only [List.foldl_cons]
    rw [ih (connect nodes c) o _ hpos2 hget]
    cases hw : wire pos o c with
    | none => simp [List.filterMap_cons, hw]
    | some x => simp [List.filterMap_cons, hw]

theorem foldl_connect_length (conns : List (ConnGene α)) (nodes : List (Node α)) :
    (conns.foldl connect nodes).length = nodes.length := by
  induction conns generalizing nodes with
  | nil => rfl
  | cons c rest ih =>
    simp only [List.foldl_cons]
    rw [ih]
    have := congrArg List.length (connect_map_nid nodes c)
    simpa using this

theorem foldl_addConn_fields (L : List (Nat × α)) (nd : Node α) :
    (L.foldl Node.addConn nd).nid = nd.nid ∧ (L.foldl Node.addConn nd).afn = nd.afn ∧
      (L.foldl Node.addConn nd).signal = nd.signal ∧
      (L.foldl Node.addConn nd).connNodes = nd.connNodes ++ L.map Prod.fst := by
  induction L generalizing nd with
  | nil => simp
  | cons x rest ih =>
    simp only [List.foldl_cons]
    obtain ⟨h1, h2, h3, h4⟩ := ih (nd.addConn x)
    refine ⟨h1, h2, h3, ?_⟩
    rw [h4]
    simp [Node.addConn]

/-- The weight stored for `i` after a run of `addConn` is the one of the last
pair with key `i`; here: the common weight of all pairs with key `i`. -/
theorem foldl_addConn_lookup (L : List (Nat × α)) (nd : Node α) (i : Nat) (w : α)
    (hall : ∀ x ∈ L, x.1 = i → x.2 = w)
    (hex : (∃ x ∈ L, x.1 = i) ∨ nd.weights.lookup i = some w) :
    (L.foldl Node.addConn nd).weights.lookup i = some w := by
  induction L generalizing nd with
  | nil =>
    rcases hex with ⟨x, hx, -⟩ | h
    · cases hx
    · exact h
  | cons x rest ih =>
    simp only [List.foldl_cons]
    apply ih
    · intro y hy
      exact hall y (List.mem_cons_of_mem _ hy)
    · by_cases hx : x.1 = i
      · right
        simp only [Node.addConn, lookup_set, hx, if_true]
        rw [hall x (List.mem_cons_self _ _) hx]
      · rcases hex with ⟨y, hy, hyi⟩ | h
        · rcases List.mem_cons.mp hy with rfl | hy2
          · exact absurd hyi hx
          · exact Or.inl ⟨y, hy2, hyi⟩
        · right
          simp only [Node.addConn, lookup_set, hx, if_false]
          exact h

theorem wire_eq_some (pos : Int → Option Nat) (o : Nat) (c : ConnGene α) (x : Nat × α) :
    wire pos o c = some x ↔
      c.disabled = false ∧ pos c.src = some x.1 ∧ pos c.out = some o ∧ x.2 = c.weight := by
  unfold wire
  cases hd : c.disabled with
  | true => simp
  | false =>
    simp only [Bool.false_eq_true, if_false, true_and]
    cases hs : pos c.src with
    | none => simp
    | some i =>
      cases ho : pos c.out with
      | none => simp
      | some o1 =>
        obtain ⟨x1, x2⟩ := x
        by_cases h : o1 = o
        · subst h
          simp only [if_true, Option.some.injEq, Prod.mk.injEq]
          constructor
          · rintro ⟨h1, h2⟩; exact ⟨h1, trivial, h2.symm⟩
          · rintro ⟨h1, -, h2⟩; exact ⟨h1, h2.symm⟩
        · simp [h]

theorem foldl_connect_map_nid (conns : List (ConnGene α)) (nodes : List (Node α)) :
    (conns.foldl connect nodes).map Node.nid = nodes.map Node.nid := by
  induction conns generalizing nodes with
  | nil => rfl
  | cons c rest ih =>
    simp only [List.foldl_cons]
    rw [ih, connect_map_nid]

theorem map_newNode_nid [Zero α] (l : List (NodeGene α)) :
    (l.map NewNode).map Node.nid = l.map NodeGene.nid := by
  simp [NewNode, Function.comp_def]

/-- The node of the decoded network at position `o`: the fresh node of the
`o`-th sorted descriptor with the connections `wire` selects for `o`. -/
theorem newNetwork_get [Zero α] (g : Genome α) (o : Nat) (d : NodeGene α)
    (h : (sortedNodes g)[o]? = some d) :
    (NewNetwork g).2.nodes[o]? =
      some ((g.conns.filterMap (wire (findNode ((sortedNodes g).map NewNode)) o)).foldl
        Node.addConn (NewNode d)) := by
  unfold NewNetwork
  simp only
  apply foldl_connect_get _ _ _ _ _ rfl
  simp [List.getElem?_map, h]

theorem newNetwork_length [Zero α] (g : Genome α) :
    (NewNetwork g).2.nodes.length = g.nodes.length := by
  unfold NewNetwork
  simp only
  rw [foldl_connect_length, List.length_map]
  exact (sortedNodes_perm g).length_eq

theorem newNetwork_map_nid [Zero α] (g : Genome α) :
    (NewNetwork g).2.nodes.map Node.nid = (sortedNodes g).map NodeGene.nid := by
  unfold NewNetwork
  simp only
  rw [foldl_connect_map_nid, map_newNode_nid]

theorem foldl_connect_filter (conns : List (ConnGene α)) (nodes : List (Node α)) :
    (conns.filter (fun c => !c.disabled)).foldl connect nodes = conns.foldl connect nodes := by
  induction conns generalizing nodes with
  | nil => rfl
  | cons c rest ih =>
    cases hd : c.disabled with
    | true =>
      have : connect nodes c = nodes := by simp [connect, hd]
      simp only [List.filter_cons, hd, Bool.not_true, Bool.false_eq_true, if_false,
        List.foldl_cons, this]
      exact ih nodes
    | false =>
      simp only [List.filter_cons, hd, Bool.not_false, if_true, List.foldl_cons]
      exact ih _

theorem countP_eq_one_unique {β : Type} (p : β → Bool) (l : List β) (h : l.countP p = 1)
    (a b : β) (ha : a ∈ l) (hpa : p a = true) (hb : b ∈ l) (hpb : p b = true) : a = b := by
  rw [List.countP_eq_length_filter] at h
  obtain ⟨x, hx⟩ := List.length_eq_one.mp h
  have h1 : a ∈ l.filter p := List.mem_filter.mpr ⟨ha, hpa⟩
  have h2 : b ∈ l.filter p := List.mem_filter.mpr ⟨hb, hpb⟩
  rw [hx] at h1 h2
  rw [List.mem_singleton.mp h1, List.mem_singleton.mp h2]

theorem count_wire (pos : Int → Option Nat) (o i : Nat) (conns : List (ConnGene α)) :
    ((conns.filterMap (wire pos o)).map Prod.fst).count i =
      conns.countP (fun d => !d.disabled && decide (pos d.src = some i) &&
        decide (pos d.out = some o)) := by
  induction conns with
  | nil => rfl
  | cons c rest ih =>
    rw [List.countP_cons, ← ih]
    cases hw : wire pos o c with
    | none =>
      have : ¬ ((!c.disabled && decide (pos c.src = some i) && decide (pos c.out = some o))
          = true) := by
        intro hc
        simp only [Bool.and_eq_true, Bool.not_eq_true', decide_eq_true_eq] at hc
        have := (wire_eq_some pos o c (i, c.weight)).mpr ⟨hc.1.1, hc.1.2, hc.2, rfl⟩
        rw [hw] at this
        cases this
      simp [List.filterMap_cons, hw, this]
    | some x =>
      obtain ⟨h1, h2, h3, h4⟩ := (wire_eq_some pos o c x).mp hw
      simp only [List.filterMap_cons, hw, List.map_cons, List.count_cons, h1, h2, h3,
        Bool.not_false, Bool.true_and, decide_True, Bool.and_true, Option.some.injEq,
        beq_iff_eq, decide_eq_true_eq]

theorem newNetwork_descriptors [Zero α] (g : Genome α) :
    (NewNetwork g).2.nodes.map (fun nd => (⟨nd.nid, nd.afn⟩ : NodeGene α)) = sortedNodes g ∧
      ∀ nd ∈ (NewNetwork g).2.nodes, nd.signal = 0 := by
  have hlen : (NewNetwork g).2.nodes.length = (sortedNodes g).length := by
    rw [newNetwork_length, (sortedNodes_perm g).length_eq]
  constructor
  · apply List.ext_getElem?
    intro o
    rw [List.getElem?_map]
    cases hd : (sortedNodes g)[o]? with
    | none =>
      have : (sortedNodes g).length ≤ o := List.getElem?_eq_none_iff.mp hd
      rw [List.getElem?_eq_none_iff.mpr (by omega)]
      rfl
    | some d =>
      rw [newNetwork_get g o d hd]
      obtain ⟨h1, h2, -, -⟩ := foldl_addConn_fields
        (g.conns.filterMap (wire (findNode ((sortedNodes g).map NewNode)) o)) (NewNode d)
      simp only [Option.map_some', h1, h2]
      rfl
  · intro nd hnd
    obtain ⟨o, ho⟩ := List.mem_iff_getElem?.mp hnd
    have holt : o < (sortedNodes g).length := by
      rw [← hlen]
      exact (List.getElem?_eq_some_iff.mp ho).1
    have hd : (sortedNodes g)[o]? = some (sortedNodes g)[o] := List.getElem?_eq_getElem holt
    rw [newNetwork_get g o _ hd] at ho
    obtain ⟨-, -, h3, -⟩ := foldl_addConn_fields
      (g.conns.filterMap (wire (findNode ((sortedNodes g).map NewNode)) o))
      (NewNode (sortedNodes g)[o])
    rw [← Option.some.inj ho, h3]
    rfl

theorem newNetwork_sorted [Zero α] (g : Genome α) :
    ((NewNetwork g).2.nodes.map Node.nid).Sorted (· ≤ ·) := by
  rw [newNetwork_map_nid]
  have := sortedNodes_sorted g
  exact List.pairwise_map.mpr this

/-- C7 (node sequence of the decoded network): whatever the order of the node
descriptors, `NewNetwork` yields one node per descriptor (same length; the
(id, activation) pairs of the nodes are a permutation of the descriptors, so
the ids are a permutation of the descriptor ids and every node has the
activation of its descriptor), ascending by id, every signal 0; hence a node at
a lower position never has a larger id than one at a higher position (the
sensors are the `S` smallest ids, the outputs the next `O`, the hidden the rest). -/
theorem newNetwork_nodes [Zero α] (g : Genome α) :
    (NewNetwork g).2.nodes.length = g.nodes.length ∧
      ((NewNetwork g).2.nodes.map (fun nd => (⟨nd.nid, nd.afn⟩ : NodeGene α))).Perm g.nodes ∧
      ((NewNetwork g).2.nodes.map Node.nid).Perm (g.nodes.map NodeGene.nid) ∧
      ((NewNetwork g).2.nodes.map Node.nid).Sorted (· ≤ ·) ∧
      (∀ nd ∈ (NewNetwork g).2.nodes, nd.signal = 0) ∧
      ∀ (i j : Nat) (a b : Node α), i < j → (NewNetwork g).2.nodes[i]? = some a →
        (NewNetwork g).2.nodes[j]? = some b → a.nid ≤ b.nid := by
  obtain ⟨hdesc, hsig⟩ := newNetwork_descriptors g
  refine ⟨newNetwork_length g, ?_, ?_, newNetwork_sorted g, hsig, ?_⟩
  · rw [hdesc]
    exact sortedNodes_perm g
  · rw [newNetwork_map_nid]
    exact (sortedNodes_perm g).map _
  · intro i j a b hij ha hb
    have hs := newNetwork_sorted g
    have hi : i < ((NewNetwork g).2.nodes.map Node.nid).length := by
      rw [List.length_map]; exact (List.getElem?_eq_some_iff.mp ha).1
    have hj : j < ((NewNetwork g).2.nodes.map Node.nid).length := by
      rw [List.length_map]; exact (List.getElem?_eq_some_iff.mp hb).1
    have h := (List.pairwise_iff_getElem.mp hs) i j hi hj hij
    have e1 : ((NewNetwork g).2.nodes.map Node.nid)[i] = a.nid := by
      have : ((NewNetwork g).2.nodes.map Node.nid)[i]? = some a.nid := by
        rw [List.getElem?_map, ha]; rfl
      rw [List.getElem?_eq_getElem hi] at this
      exact Option.some.inj this
    have e2 : ((NewNetwork g).2.nodes.map Node.nid)[j] = b.nid := by
      have : ((NewNetwork g).2.nodes.map Node.nid)[j]? = some b.nid := by
        rw [List.getElem?_map, hb]; rfl
      rw [List.getElem?_eq_getElem hj] at this
      exact Option.some.inj this
    rw [e1, e2] at h
    exact h

/-- C8 (disabled connections): decoding a genome gives the same network as
decoding it with all disabled connections removed, and a disabled connection
changes nothing in the loop of `NewNetwork`, whatever its ids and weight. -/
theorem newNetwork_disabled [Zero α] (g : Genome α) :
    (NewNetwork g).2 =
        (NewNetwork { g with conns := g.conns.filter (fun c => !c.disabled) }).2 ∧
      ∀ (nodes : List (Node α)) (c : ConnGene α), c.disabled = true → connect nodes c = nodes := by
  constructor
  · unfold NewNetwork
    simp only [sortedNodes, foldl_connect_filter]
  · intro nodes c hc
    simp [connect, hc]

/-- C9 (dangling references): a connection whose source id or target id is the
id of no node descriptor leaves the decoded network as it is without that
connection (`NewNetwork` is a total function: decoding cannot fail). -/
theorem newNetwork_dangling [Zero α] (g : Genome α) (l1 l2 : List (ConnGene α))
    (c : ConnGene α) (hc : g.conns = l1 ++ c :: l2)
    (hd : c.src ∉ g.nodes.map NodeGene.nid ∨ c.out ∉ g.nodes.map NodeGene.nid) :
    (NewNetwork g).2 = (NewNetwork { g with conns := l1 ++ l2 }).2 := by
  have key : ∀ nodes : List (Node α), nodes.map Node.nid = (sortedNodes g).map NodeGene.nid →
      connect nodes c = nodes := by
    intro nodes hn
    have hnone : ∀ id, id ∉ g.nodes.map NodeGene.nid → findNode nodes id = none := by
      intro id hid
      cases hf : findNode nodes id with
      | none => rfl
      | some i =>
        exfalso
        obtain ⟨h1, h2⟩ := findNode_some hf
        have hget : nodes[i]? = some nodes[i] := List.getElem?_eq_getElem h1
        rw [nidAt_eq hget] at h2
        have hm : id ∈ nodes.map Node.nid := by
          rw [← h2]
          exact List.mem_map_of_mem _ (List.getElem?_mem hget)
        rw [hn] at hm
        exact hid (((sortedNodes_perm g).map NodeGene.nid).mem_iff.mp hm)
    unfold connect
    cases hdis : c.disabled with
    | true => simp
    | false =>
      rcases hd with h | h
      · simp [hnone _ h]
      · cases hs : findNode nodes c.src with
        | none => simp
        | some i => simp [hnone _ h]
  unfold NewNetwork
  simp only [sortedNodes] at key ⊢
  rw [hc, List.foldl_append, List.foldl_append, List.foldl_cons, key]
  rw [foldl_connect_map_nid, map_newNode_nid]

/-- C6 (wiring): for a genome with pairwise distinct node ids (in any order),
an enabled connection `c` whose source and target ids are node ids and which is
the only enabled connection with that (source, target) pair is wired: nodes with
these two ids exist in the decoded network, the target node has the source node
exactly once in its inbound sequence and its weight for it is `c.weight`.
Conversely every inbound reference of a decoded node comes from an enabled
connection whose source id and target id are the ids of the two nodes. -/
theorem newNetwork_wiring [Zero α] (g : Genome α) (hnd : (g.nodes.map NodeGene.nid).Nodup) :
    (∀ c ∈ g.conns, c.disabled = false → c.src ∈ g.nodes.map NodeGene.nid →
        c.out ∈ g.nodes.map NodeGene.nid →
        g.conns.countP (fun d => !d.disabled && decide (d.src = c.src) &&
          decide (d.out = c.out)) = 1 →
        (∃ (i o : Nat) (ni no : Node α), (NewNetwork g).2.nodes[i]? = some ni ∧ ni.nid = c.src ∧
          (NewNetwork g).2.nodes[o]? = some no ∧ no.nid = c.out) ∧
        ∀ (i o : Nat) (ni no : Node α), (NewNetwork g).2.nodes[i]? = some ni → ni.nid = c.src →
          (NewNetwork g).2.nodes[o]? = some no → no.nid = c.out →
          no.connNodes.count i = 1 ∧ no.weights.lookup i = some c.weight) ∧
      ∀ (o : Nat) (no : Node α), (NewNetwork g).2.nodes[o]? = some no → ∀ i ∈ no.connNodes,
        ∃ ni : Node α, ∃ c ∈ g.conns, (NewNetwork g).2.nodes[i]? = some ni ∧ c.disabled = false ∧
          c.src = ni.nid ∧ c.out = no.nid := by
  -- the fresh nodes and the lookups on them
  set nodes0 := (sortedNodes g).map NewNode with hn0
  set net := (NewNetwork g).2 with hnet
  have hnid : net.nodes.map Node.nid = nodes0.map Node.nid := by
    rw [hnet, newNetwork_map_nid, hn0, map_newNode_nid]
  have hlen : net.nodes.length = nodes0.length := by
    have := congrArg List.length hnid
    simpa using this
  have hlen0 : nodes0.length = (sortedNodes g).length := by rw [hn0, List.length_map]
  have hsorted : (nodes0.map Node.nid).Sorted (· ≤ ·) := by
    rw [← hnid]; exact newNetwork_sorted g
  have hnodup : (net.nodes.map Node.nid).Nodup := by
    rw [hnet, newNetwork_map_nid]
    exact (((sortedNodes_perm g).map NodeGene.nid).nodup_iff).mpr hnd
  -- the node at a position, as the connection loop leaves it
  have hget : ∀ (o : Nat) (no : Node α), net.nodes[o]? = some no →
      ∃ d : NodeGene α, no = (g.conns.filterMap (wire (findNode nodes0) o)).foldl Node.addConn
        (NewNode d) := by
    intro o no ho
    have holt : o < (sortedNodes g).length := by
      rw [← hlen0, ← hlen]; exact (List.getElem?_eq_some_iff.mp ho).1
    have hd : (sortedNodes g)[o]? = some (sortedNodes g)[o] := List.getElem?_eq_getElem holt
    have := newNetwork_get g o _ hd
    rw [← hnet, ho] at this
    exact ⟨_, Option.some.inj this⟩
  -- positions are determined by ids
  have hpos_unique : ∀ (i j : Nat) (a b : Node α), net.nodes[i]? = some a → net.nodes[j]? = some b →
      a.nid = b.nid → i = j := by
    intro i j a b ha hb hab
    have hi : i < (net.nodes.map Node.nid).length := by
      rw [List.length_map]; exact (List.getElem?_eq_some_iff.mp ha).1
    have hj : j < (net.nodes.map Node.nid).length := by
      rw [List.length_map]; exact (List.getElem?_eq_some_iff.mp hb).1
    have e1 : (net.nodes.map Node.nid)[i]? = some a.nid := by
      rw [List.getElem?_map, ha]; rfl
    have e2 : (net.nodes.map Node.nid)[j]? = some b.nid := by
      rw [List.getElem?_map, hb]; rfl
    rw [List.getElem?_eq_getElem hi] at e1
    rw [List.getElem?_eq_getElem hj] at e2
    have hinj := List.nodup_iff_injective_get.mp hnodup
    have heq : (net.nodes.map Node.nid).get ⟨i, hi⟩ = (net.nodes.map Node.nid).get ⟨j, hj⟩ := by
      show (net.nodes.map Node.nid)[i] = (net.nodes.map Node.nid)[j]
      rw [Option.some.inj e1, Option.some.inj e2, hab]
    exact congrArg Fin.val (hinj heq)
  have hnidAt : ∀ (i : Nat) (a : Node α), net.nodes[i]? = some a → nidAt nodes0 i = a.nid := by
    intro i a ha
    rw [← nidAt_congr hnid i, nidAt_eq ha]
  -- an id that is present is found, at a position of the network
  have hfound : ∀ id, id ∈ g.nodes.map NodeGene.nid →
      ∃ (i : Nat) (a : Node α), findNode nodes0 id = some i ∧ net.nodes[i]? = some a ∧ a.nid = id := by
    intro id hid
    have hm : id ∈ nodes0.map Node.nid := by
      rw [hn0, map_newNode_nid]
      exact ((sortedNodes_perm g).map NodeGene.nid).mem_iff.mpr hid
    obtain ⟨nd, hndm, hndid⟩ := List.mem_map.mp hm
    obtain ⟨t, ht⟩ := List.mem_iff_getElem?.mp hndm
    have htlt : t < nodes0.length := (List.getElem?_eq_some_iff.mp ht).1
    obtain ⟨i, hi, -⟩ := findNode_of_mem hsorted htlt ((nidAt_eq ht).trans hndid)
    obtain ⟨hilt, hiid⟩ := findNode_some hi
    have hia : net.nodes[i]? = some net.nodes[i] := List.getElem?_eq_getElem (by omega)
    exact ⟨i, _, hi, hia, by rw [← hnidAt i _ hia, hiid]⟩
  constructor
  · intro c hc hen hsrc hout hone
    obtain ⟨i0, a0, hf1, ha0, hid0⟩ := hfound c.src hsrc
    obtain ⟨o0, b0, hf2, hb0, hod0⟩ := hfound c.out hout
    refine ⟨⟨i0, o0, a0, b0, ha0, hid0, hb0, hod0⟩, ?_⟩
    intro i o ni no hni hnis hno hnos
    have hi : i = i0 := hpos_unique i i0 ni a0 hni ha0 (hnis.trans hid0.symm)
    have ho : o = o0 := hpos_unique o o0 no b0 hno hb0 (hnos.trans hod0.symm)
    subst hi
    subst ho
    obtain ⟨dsc, hno2⟩ := hget o no hno
    obtain ⟨-, -, -, hconn⟩ := foldl_addConn_fields
      (g.conns.filterMap (wire (findNode nodes0) o)) (NewNode dsc)
    -- a connection selected for `(i, o)` has the ids of `c`
    have hsel : ∀ d : ConnGene α, findNode nodes0 d.src = some i →
        findNode nodes0 d.out = some o → d.src = c.src ∧ d.out = c.out := by
      intro d h1 h2
      constructor
      · rw [← (findNode_some h1).2, ← (findNode_some hf1).2]
      · rw [← (findNode_some h2).2, ← (findNode_some hf2).2]
    constructor
    · rw [hno2, hconn]
      simp only [NewNode, List.nil_append]
      rw [count_wire, ← hone]
      apply List.countP_congr
      intro d _
      simp only [Bool.and_eq_true, Bool.not_eq_true', decide_eq_true_eq]
      constructor
      · rintro ⟨⟨h1, h2⟩, h3⟩
        exact ⟨⟨h1, (hsel d h2 h3).1⟩, (hsel d h2 h3).2⟩
      · rintro ⟨⟨h1, h2⟩, h3⟩
        exact ⟨⟨h1, by rw [h2, hf1]⟩, by rw [h3, hf2]⟩
    · rw [hno2]
      apply foldl_addConn_lookup
      · intro x hx hxi
        obtain ⟨d, hd, hwd⟩ := List.mem_filterMap.mp hx
        obtain ⟨h1, h2, h3, h4⟩ := (wire_eq_some _ _ _ _).mp hwd
        rw [hxi] at h2
        have hdc := hsel d h2 h3
        have : d = c := by
          apply countP_eq_one_unique _ _ hone d c hd _ hc _
          · simp [h1, hdc.1, hdc.2]
          · simp [hen]
        rw [h4, this]
      · left
        refine ⟨(i, c.weight), ?_, rfl⟩
        apply List.mem_filterMap.mpr
        exact ⟨c, hc, (wire_eq_some _ _ _ _).mpr ⟨hen, hf1, hf2, rfl⟩⟩
  · intro o no hno i hi
    obtain ⟨dsc, hno2⟩ := hget o no hno
    obtain ⟨-, -, -, hconn⟩ := foldl_addConn_fields
      (g.conns.filterMap (wire (findNode nodes0) o)) (NewNode dsc)
    rw [hno2, hconn] at hi
    simp only [NewNode, List.nil_append] at hi
    obtain ⟨x, hx, hxi⟩ := List.mem_map.mp hi
    obtain ⟨d, hd, hwd⟩ := List.mem_filterMap.mp hx
    obtain ⟨h1, h2, h3, -⟩ := (wire_eq_some _ _ _ _).mp hwd
    rw [hxi] at h2
    obtain ⟨hilt, hiid⟩ := findNode_some h2
    have hia : net.nodes[i]? = some net.nodes[i] := List.getElem?_eq_getElem (by omega)
    refine ⟨net.nodes[i], d, hd, hia, h1, ?_, ?_⟩
    · rw [← hiid, hnidAt i _ hia]
    · rw [← (findNode_some h3).2, hnidAt o no hno]

/-- Witness of C6 on `mixedGenome`, for its connection 1→2 of weight 2: the
node at position 2 holds position 1 exactly once, with weight 2. -/
theorem newNetwork_wiring_witness :
    ∃ no, (NewNetwork mixedGenome).2.nodes[2]? = some no ∧
      no.connNodes.count 1 = 1 ∧ no.weights.lookup 1 = some 2 := by
  have h := (newNetwork_wiring mixedGenome (by decide)).1 ⟨1, 2, 2, false⟩
    (List.mem_cons_of_mem _ (List.mem_cons_self _ _)) rfl (by decide) (by decide) (by decide)
  have hlt1 : 1 < (NewNetwork mixedGenome).2.nodes.length := by decide
  have hlt2 : 2 < (NewNetwork mixedGenome).2.nodes.length := by decide
  have e1 : ((NewNetwork mixedGenome).2.nodes.get ⟨1, hlt1⟩).nid = 1 := rfl
  have e2 : ((NewNetwork mixedGenome).2.nodes.get ⟨2, hlt2⟩).nid = 2 := rfl
  exact ⟨_, List.getElem?_eq_getElem hlt2,
    h.2 1 2 _ _ (List.getElem?_eq_getElem hlt1) e1 (List.getElem?_eq_getElem hlt2) e2⟩

/-- Witness of C9 on `mixedGenome`: its connection 5→2 has no source node; the
network is the one decoded without it. -/
theorem newNetwork_dangling_witness :
    (NewNetwork mixedGenome).2 =
      (NewNetwork { mixedGenome with
        conns := [⟨0, 2, 1, false⟩, ⟨1, 2, 2, false⟩] ++ [⟨1, 2, 7, true⟩] }).2 :=
  newNetwork_dangling mixedGenome [⟨0, 2, 1, false⟩, ⟨1, 2, 2, false⟩] [⟨1, 2, 7, true⟩]
    ⟨5, 2, 2, false⟩ rfl (Or.inl (by decide))

theorem sortedNodes_of_sorted (g : Genome α) (h : g.nodes.Sorted byNID.le) :
    sortedNodes g = g.nodes := by
  unfold sortedNodes
  rw [(isSorted_iff g.nodes).mpr h]
  rfl

/-- With pairwise distinct ids the sorted descriptor list is determined by the
descriptors, whatever their order. -/
theorem sortedNodes_perm_eq (g1 g2 : Genome α) (hp : g1.nodes.Perm g2.nodes)
    (hnd : (g2.nodes.map NodeGene.nid).Nodup) : sortedNodes g1 = sortedNodes g2 := by
  have hstrict : ∀ g : Genome α, (g.nodes.map NodeGene.nid).Nodup →
      (sortedNodes g).Sorted (fun a b => a.nid < b.nid) := by
    intro g hg
    have h1 : (sortedNodes g).Pairwise (fun a b => a.nid ≤ b.nid) := sortedNodes_sorted g
    have h2 : ((sortedNodes g).map NodeGene.nid).Nodup :=
      (((sortedNodes_perm g).map NodeGene.nid).nodup_iff).mpr hg
    have h3 : (sortedNodes g).Pairwise (fun a b => a.nid ≠ b.nid) := List.pairwise_map.mp h2
    exact (h1.and h3).imp (fun h => lt_of_le_of_ne h.1 h.2)
  have hnd1 : (g1.nodes.map NodeGene.nid).Nodup := ((hp.map NodeGene.nid).nodup_iff).mpr hnd
  haveI : IsAntisymm (NodeGene α) (fun a b => a.nid < b.nid) :=
    ⟨fun a b h1 h2 => absurd h1 (not_lt.mpr (le_of_lt h2))⟩
  exact List.eq_of_perm_of_sorted
    (((sortedNodes_perm g1).trans hp).trans (sortedNodes_perm g2).symm)
    (hstrict g1 hnd1) (hstrict g2 hnd)

/-- C11 (decode stability and order-insensitivity): for a genome with pairwise
distinct node ids, decoding the genome as a first decoding left it, and decoding
any permutation of its node descriptors with the same connections, gives the
same network (same node order, inbound sequences, weights, signals and
activations). -/
theorem newNetwork_stable [Zero α] (g : Genome α) (hnd : (g.nodes.map NodeGene.nid).Nodup) :
    (NewNetwork (NewNetwork g).1).2 = (NewNetwork g).2 ∧
      ∀ nodes1 : List (NodeGene α), nodes1.Perm g.nodes →
        (NewNetwork { g with nodes := nodes1 }).2 = (NewNetwork g).2 := by
  constructor
  · have h : sortedNodes (NewNetwork g).1 = sortedNodes g :=
      sortedNodes_of_sorted (NewNetwork g).1 (sortedNodes_sorted g)
    show ({ nodes := (NewNetwork g).1.conns.foldl connect ((sortedNodes (NewNetwork g).1).map
      NewNode) } : Network α) = _
    rw [h]
    rfl
  · intro nodes1 hp
    have h := sortedNodes_perm_eq { g with nodes := nodes1 } g hp hnd
    show ({ nodes := g.conns.foldl connect ((sortedNodes { g with nodes := nodes1 }).map
      NewNode) } : Network α) = _
    rw [h]
    rfl

/-- Witness of C11 on `mixedGenome` (nodes 2, 0, 1): decoding it again, and
decoding it with the nodes given as 0, 1, 2, gives the same network. -/
theorem newNetwork_stable_witness :
    (NewNetwork (NewNetwork mixedGenome).1).2 = (NewNetwork mixedGenome).2 ∧
      (NewNetwork { mixedGenome with nodes := [⟨0, idAfn⟩, ⟨1, idAfn⟩] ++ [⟨2, idAfn⟩] }).2
        = (NewNetwork mixedGenome).2 :=
  ⟨(newNetwork_stable mixedGenome (by decide)).1,
   (newNetwork_stable mixedGenome (by decide)).2 _ List.perm_append_comm⟩

/-- C20 (effect of decoding on the genome): `NewNetwork` leaves the connection
list as it is, leaves the node list a permutation of itself (every descriptor
unchanged) that is ascending by id, and leaves the node list itself unchanged
when it was already ascending by id. -/
theorem newNetwork_genome [Zero α] (g : Genome α) :
    (NewNetwork g).1.conns = g.conns ∧ (NewNetwork g).1.nodes.Perm g.nodes ∧
      ((NewNetwork g).1.nodes.map NodeGene.nid).Sorted (· ≤ ·) ∧
      ((g.nodes.map NodeGene.nid).Sorted (· ≤ ·) → (NewNetwork g).1.nodes = g.nodes) := by
  refine ⟨rfl, sortedNodes_perm g, List.pairwise_map.mpr (sortedNodes_sorted g), ?_⟩
  intro h
  have h2 : g.nodes.Pairwise (fun a b => a.nid ≤ b.nid) := List.pairwise_map.mp h
  exact sortedNodes_of_sorted g h2

theorem keys_set (m : WeightMap α) (k : Nat) (v : α) :
    (m.set k v).map Prod.fst =
      if k ∈ m.map Prod.fst then m.map Prod.fst else m.map Prod.fst ++ [k] := by
  induction m with
  | nil => simp [WeightMap.set]
  | cons x m ih =>
    obtain ⟨k1, v1⟩ := x
    simp only [WeightMap.set]
    by_cases h1 : k1 = k
    · subst h1
      simp
    · have h2 : ¬ k = k1 := fun h => h1 h.symm
      simp only [h1, if_false, List.map_cons, ih, List.mem_cons, h2, false_or]
      by_cases h3 : k ∈ m.map Prod.fst
      · simp only [h3, if_true]
      · simp only [h3, if_false, List.cons_append]

theorem lookup_isSome_iff (m : WeightMap α) (k : Nat) :
    (m.lookup k).isSome = true ↔ k ∈ m.map Prod.fst := by
  induction m with
  | nil => simp [WeightMap.lookup]
  | cons x m ih =>
    obtain ⟨k1, v1⟩ := x
    simp only [WeightMap.lookup, List.map_cons, List.mem_cons]
    by_cases h1 : k1 = k
    · subst h1
      simp
    · have h2 : ¬ k = k1 := fun h => h1 h.symm
      simp only [h1, if_false, ih, h2, false_or]

/-- The keys of the weights after a run of `addConn` on a node whose keys are
among its inbound entries: they are the inbound entries without repetition, in
order of first occurrence; in particular exactly the entries themselves when
these do not repeat. -/
theorem foldl_addConn_keys (L : List (Nat × α)) (nd : Node α)
    (hk : (nd.weights.map Prod.fst).Nodup) :
    ((L.foldl Node.addConn nd).weights.map Prod.fst).Nodup ∧
      (∀ i, i ∈ (L.foldl Node.addConn nd).weights.map Prod.fst ↔
        i ∈ nd.weights.map Prod.fst ∨ i ∈ L.map Prod.fst) ∧
      ((L.map Prod.fst).Nodup → (∀ k ∈ L.map Prod.fst, k ∉ nd.weights.map Prod.fst) →
        (L.foldl Node.addConn nd).weights.map Prod.fst
          = nd.weights.map Prod.fst ++ L.map Prod.fst) := by
  induction L generalizing nd with
  | nil => simp [hk]
  | cons x rest ih =>
    have hk1 : ((nd.addConn x).weights.map Prod.fst).Nodup := by
      simp only [Node.addConn, keys_set]
      by_cases h : x.1 ∈ nd.weights.map Prod.fst
      · simp only [h, if_true]; exact hk
      · simp only [h, if_false]
        exact List.Nodup.append hk (List.nodup_singleton _) (by
          intro a ha hb
          rw [List.mem_singleton] at hb
          subst hb
          exact h ha)
    have hmem1 : ∀ i, i ∈ (nd.addConn x).weights.map Prod.fst ↔
        i ∈ nd.weights.map Prod.fst ∨ i = x.1 := by
      intro i
      simp only [Node.addConn, keys_set]
      by_cases h : x.1 ∈ nd.weights.map Prod.fst
      · simp only [h, if_true]
        constructor
        · exact Or.inl
        · rintro (h1 | h1)
          · exact h1
          · rw [h1]; exact h
      · simp only [h, if_false, List.mem_append, List.mem_singleton]
    obtain ⟨h1, h2, h3⟩ := ih (nd.addConn x) hk1
    simp only [List.foldl_cons]
    refine ⟨h1, ?_, ?_⟩
    · intro i
      rw [h2 i, hmem1 i]
      simp only [List.map_cons, List.mem_cons]
      tauto
    · intro hnd hdis
      simp only [List.map_cons, List.nodup_cons] at hnd
      have hx : x.1 ∉ nd.weights.map Prod.fst :=
        hdis x.1 (by simp)
      have hkeys : (nd.addConn x).weights.map Prod.fst = nd.weights.map Prod.fst ++ [x.1] := by
        simp only [Node.addConn, keys_set, hx, if_false]
      rw [h3 hnd.2, hkeys]
      · simp
      · intro k hkm
        rw [hmem1 k]
        rintro (h4 | h4)
        · exact hdis k (by simp [hkm]) h4
        · rw [h4] at hkm
          exact hnd.1 hkm

/-- Every node of the decoded network is the fresh node of a descriptor with
the connections that `wire` selects for its position added in genome order. -/
theorem newNetwork_node [Zero α] (g : Genome α) (o : Nat) (no : Node α)
    (h : (NewNetwork g).2.nodes[o]? = some no) :
    ∃ d : NodeGene α, (sortedNodes g)[o]? = some d ∧
      no = (g.conns.filterMap (wire (findNode ((sortedNodes g).map NewNode)) o)).foldl
        Node.addConn (NewNode d) := by
  have holt : o < (sortedNodes g).length := by
    have h1 := (List.getElem?_eq_some_iff.mp h).1
    rw [newNetwork_length, ← (sortedNodes_perm g).length_eq] at h1
    exact h1
  have hd : (sortedNodes g)[o]? = some (sortedNodes g)[o] := List.getElem?_eq_getElem holt
  have := newNetwork_get g o _ hd
  rw [h] at this
  exact ⟨_, hd, Option.some.inj this⟩

/-- A position found by the lookup on the fresh nodes is a position of the
decoded network, whose node there has the id looked for; the id is a node id
of the genome. -/
theorem findNode_fresh [Zero α] (g : Genome α) (id : Int) (i : Nat)
    (h : findNode ((sortedNodes g).map NewNode) id = some i) :
    i < (NewNetwork g).2.nodes.length ∧ nidAt (NewNetwork g).2.nodes i = id ∧
      id ∈ g.nodes.map NodeGene.nid := by
  obtain ⟨h1, h2⟩ := findNode_some h
  have hnid : (NewNetwork g).2.nodes.map Node.nid = ((sortedNodes g).map NewNode).map Node.nid := by
    rw [newNetwork_map_nid, map_newNode_nid]
  have hlen : (NewNetwork g).2.nodes.length = ((sortedNodes g).map NewNode).length := by
    have := congrArg List.length hnid
    simpa using this
  refine ⟨by omega, by rw [nidAt_congr hnid i, h2], ?_⟩
  have hget : ((sortedNodes g).map NewNode)[i]? = some ((sortedNodes g).map NewNode)[i] :=
    List.getElem?_eq_getElem h1
  rw [nidAt_eq hget] at h2
  have hm : id ∈ ((sortedNodes g).map NewNode).map Node.nid := by
    rw [← h2]
    exact List.mem_map_of_mem _ (List.getElem?_mem hget)
  rw [map_newNode_nid] at hm
  exact ((sortedNodes_perm g).map NodeGene.nid).mem_iff.mp hm

/-- C18 (closed wiring): in the network produced by `NewNetwork`, every inbound
reference of every node is a position of the node sequence of that network, and
the node has a weight entry for it, so `Node.Output` reads no missing weight. -/
theorem newNetwork_closed [Zero α] (g : Genome α) :
    ∀ no ∈ (NewNetwork g).2.nodes, ∀ i ∈ no.connNodes,
      i < (NewNetwork g).2.nodes.length ∧ ∃ w, no.weights.lookup i = some w := by
  intro no hno i hi
  obtain ⟨o, ho⟩ := List.mem_iff_getElem?.mp hno
  obtain ⟨d, -, hrep⟩ := newNetwork_node g o no ho
  obtain ⟨-, -, -, hconn⟩ := foldl_addConn_fields
    (g.conns.filterMap (wire (findNode ((sortedNodes g).map NewNode)) o)) (NewNode d)
  obtain ⟨-, hkeys, -⟩ := foldl_addConn_keys
    (g.conns.filterMap (wire (findNode ((sortedNodes g).map NewNode)) o)) (NewNode d)
    (by simp [NewNode])
  rw [hrep, hconn] at hi
  simp only [NewNode, List.nil_append] at hi
  constructor
  · obtain ⟨x, hx, hxi⟩ := List.mem_map.mp hi
    obtain ⟨c, -, hwc⟩ := List.mem_filterMap.mp hx
    obtain ⟨-, h2, -, -⟩ := (wire_eq_some _ _ _ _).mp hwc
    rw [hxi] at h2
    exact (findNode_fresh g _ _ h2).1
  · have hmem : i ∈ no.weights.map Prod.fst := by
      rw [hrep]
      exact (hkeys i).mpr (Or.inr hi)
    have := (lookup_isSome_iff no.weights i).mpr hmem
    exact Option.isSome_iff_exists.mp this

/-- When the connections that pass `p` have pairwise distinct (source, target)
id pairs, and `wire` selects only such connections, sources determining the id
pair, then the sources selected for one position do not repeat. -/
theorem wire_sources_nodup (pos : Int → Option Nat) (o : Nat) (p : ConnGene α → Bool)
    (hA : ∀ (c : ConnGene α) (x : Nat × α), wire pos o c = some x → p c = true)
    (hB : ∀ (c d : ConnGene α) (x y : Nat × α), wire pos o c = some x →
      wire pos o d = some y → x.1 = y.1 →
      (c.src, c.out) = (d.src, d.out))
    (conns : List (ConnGene α))
    (h : ((conns.filter p).map (fun c => (c.src, c.out))).Nodup) :
    ((conns.filterMap (wire pos o)).map Prod.fst).Nodup := by
  induction conns with
  | nil => simp
  | cons c rest ih =>
    cases hw : wire pos o c with
    | none =>
      simp only [List.filterMap_cons, hw]
      apply ih
      by_cases hp : p c = true
      · simp only [List.filter_cons, hp, if_true, List.map_cons, List.nodup_cons] at h
        exact h.2
      · simp only [List.filter_cons, hp, if_false] at h
        exact h
    | some x =>
      have hp := hA c x hw
      simp only [List.filter_cons, hp, if_true, List.map_cons, List.nodup_cons] at h
      simp only [List.filterMap_cons, hw, List.map_cons, List.nodup_cons]
      refine ⟨?_, ih h.2⟩
      intro hmem
      obtain ⟨y, hy, hyx⟩ := List.mem_map.mp hmem
      obtain ⟨d, hd, hwd⟩ := List.mem_filterMap.mp hy
      apply h.1
      rw [hB c d x y hw hwd hyx.symm]
      exact List.mem_map_of_mem _ (List.mem_filter.mpr ⟨hd, hA d y hwd⟩)

/-- C12, as amended (node invariant): when no two enabled connections with
both ids among the node ids have the same (source id, target id) pair, every
node of the decoded network has its weights in 1:1 correspondence with its
inbound sequence: the keys of the weights are the inbound entries in order, the
two have the same number of entries, and no source occurs twice. -/
theorem newNetwork_node_invariant [Zero α] (g : Genome α)
    (h : ((g.conns.filter (fun c => !c.disabled &&
        decide (c.src ∈ g.nodes.map NodeGene.nid) &&
        decide (c.out ∈ g.nodes.map NodeGene.nid))).map (fun c => (c.src, c.out))).Nodup) :
    ∀ no ∈ (NewNetwork g).2.nodes,
      no.weights.map Prod.fst = no.connNodes ∧ no.connNodes.length = no.weights.length ∧
        no.connNodes.Nodup := by
  intro no hno
  obtain ⟨o, ho⟩ := List.mem_iff_getElem?.mp hno
  obtain ⟨d, -, hrep⟩ := newNetwork_node g o no ho
  set pos := findNode ((sortedNodes g).map NewNode) with hpos
  set L := g.conns.filterMap (wire pos o) with hL
  obtain ⟨-, -, -, hconn⟩ := foldl_addConn_fields L (NewNode d)
  obtain ⟨-, -, hkeys⟩ := foldl_addConn_keys L (NewNode d) (by simp [NewNode])
  have hnodup : (L.map Prod.fst).Nodup := by
    apply wire_sources_nodup pos o _ _ _ g.conns h
    · intro c x hw
      obtain ⟨h1, h2, h3, -⟩ := (wire_eq_some _ _ _ _).mp hw
      simp only [Bool.and_eq_true, Bool.not_eq_true', decide_eq_true_eq]
      exact ⟨⟨h1, (findNode_fresh g _ _ h2).2.2⟩, (findNode_fresh g _ _ h3).2.2⟩
    · intro c e x y hwc hwe hxy
      obtain ⟨-, c2, c3, -⟩ := (wire_eq_some _ _ _ _).mp hwc
      obtain ⟨-, e2, e3, -⟩ := (wire_eq_some _ _ _ _).mp hwe
      rw [hxy] at c2
      have s1 := (findNode_some c2).2
      have s2 := (findNode_some e2).2
      have t1 := (findNode_some c3).2
      have t2 := (findNode_some e3).2
      rw [← s1, ← s2, ← t1, ← t2]
  have hk := hkeys hnodup (by simp [NewNode])
  have hc : no.connNodes = L.map Prod.fst := by
    rw [hrep, hconn]; simp [NewNode]
  have hw : no.weights.map Prod.fst = L.map Prod.fst := by
    rw [hrep, hk]; simp [NewNode]
  refine ⟨by rw [hw, hc], ?_, by rw [hc]; exact hnodup⟩
  have := congrArg List.length hw
  rw [List.length_map] at this
  rw [this, hc]

/-- Witness of C12 as amended, on `mixedGenome`: the node at position 2 has the
inbound sequence 0, 1 and one weight for each. -/
theorem newNetwork_node_invariant_witness :
    ∃ no, (NewNetwork mixedGenome).2.nodes[2]? = some no ∧
      no.weights.map Prod.fst = no.connNodes ∧ no.connNodes.length = no.weights.length ∧
        no.connNodes.Nodup := by
  have hlt : 2 < (NewNetwork mixedGenome).2.nodes.length := by decide
  exact ⟨_, List.getElem?_eq_getElem hlt,
    newNetwork_node_invariant mixedGenome (by decide) _ (List.getElem_mem hlt)⟩

/-- Counterexample to C12 as stated: decoding `dupGenome` gives a node with the
inbound sequence 0, 0 and the single weight entry (0, 2): two inbound entries,
one weight, a source occurring twice. -/
theorem newNetwork_node_invariant_counterexample :
    (NewNetwork dupGenome).2.nodes.map (fun nd => (nd.connNodes, nd.weights))
        = [([], []), ([0, 0], [(0, 2)])] ∧
      ¬ ∀ nd ∈ (NewNetwork dupGenome).2.nodes,
        nd.connNodes.length = nd.weights.length ∧ nd.connNodes.Nodup := by
  refine ⟨by decide, ?_⟩
  intro h
  have hget : (NewNetwork dupGenome).2.nodes[1]? = some (Node.mk 1 [0, 0] [(0, 2)] 0 idAfn) :=
    rfl
  exact absurd (h _ (List.getElem?_mem hget)).1 (by decide)

/-- The weight stored for `i` after a run of `addConn` is the weight of the
last pair with key `i`, or the weight held before when there is none. -/
theorem foldl_addConn_lookup_last (L : List (Nat × α)) (nd : Node α) (i : Nat) :
    (L.foldl Node.addConn nd).weights.lookup i =
      match (L.filter (fun x => x.1 == i)).getLast? with
      | some x => some x.2
      | none => nd.weights.lookup i := by
  induction L using List.reverseRecOn with
  | nil => simp
  | append_singleton l x ih =>
    rw [List.foldl_append, List.filter_append]
    simp only [List.foldl_cons, List.foldl_nil, Node.addConn, lookup_set]
    by_cases hx : x.1 = i
    · have hf : List.filter (fun y : Nat × α => y.1 == i) [x] = [x] := by simp [hx]
      rw [hf, List.getLast?_concat, if_pos hx]
    · have hf : List.filter (fun y : Nat × α => y.1 == i) [x] = [] := by simp [hx]
      rw [hf, List.append_nil, if_neg hx]
      exact ih

/-- The pairs that `wire` selects for position `o` with source position `i` are
those of the connections passing `p`, when `p` says: enabled, source found at
`i`, target found at `o`. -/
theorem filter_wire (pos : Int → Option Nat) (o i : Nat) (p : ConnGene α → Bool)
    (hsel : ∀ d : ConnGene α, p d = true ↔
      (d.disabled = false ∧ pos d.src = some i ∧ pos d.out = some o))
    (conns : List (ConnGene α)) :
    (conns.filterMap (wire pos o)).filter (fun x => x.1 == i) =
      (conns.filter p).map (fun d => (i, d.weight)) := by
  induction conns with
  | nil => rfl
  | cons c rest ih =>
    cases hw : wire pos o c with
    | none =>
      have hp : ¬ p c = true := by
        intro hp
        obtain ⟨h1, h2, h3⟩ := (hsel c).mp hp
        have := (wire_eq_some pos o c (i, c.weight)).mpr ⟨h1, h2, h3, rfl⟩
        rw [hw] at this
        cases this
      simp only [List.filterMap_cons, hw, List.filter_cons, hp, if_false]
      exact ih
    | some x =>
      obtain ⟨h1, h2, h3, h4⟩ := (wire_eq_some pos o c x).mp hw
      by_cases hx : x.1 = i
      · have hp : p c = true := (hsel c).mpr ⟨h1, by rw [← hx]; exact h2, h3⟩
        have hb : (x.1 == i) = true := by simp [hx]
        simp only [List.filterMap_cons, hw, List.filter_cons, hp, hb, if_true, List.map_cons, ih]
        congr 1
        exact Prod.ext hx h4
      · have hp : ¬ p c = true := by
          intro hp
          obtain ⟨-, h5, -⟩ := (hsel c).mp hp
          rw [h2] at h5
          exact hx (Option.some.inj h5)
        have hb : (x.1 == i) = false := by simp [hx]
        simp only [List.filterMap_cons, hw, List.filter_cons, hp, hb, if_false,
          Bool.false_eq_true]
        exact ih

/-- An id of the genome is found by the lookup on the fresh nodes, at a position
of the decoded network whose node has that id. -/
theorem newNetwork_find [Zero α] (g : Genome α) (id : Int)
    (hid : id ∈ g.nodes.map NodeGene.nid) :
    ∃ (i : Nat) (a : Node α), findNode ((sortedNodes g).map NewNode) id = some i ∧
      (NewNetwork g).2.nodes[i]? = some a ∧ a.nid = id := by
  have hsorted : (((sortedNodes g).map NewNode).map Node.nid).Sorted (· ≤ ·) := by
    rw [map_newNode_nid, ← newNetwork_map_nid]
    exact newNetwork_sorted g
  have hm : id ∈ ((sortedNodes g).map NewNode).map Node.nid := by
    rw [map_newNode_nid]
    exact ((sortedNodes_perm g).map NodeGene.nid).mem_iff.mpr hid
  obtain ⟨nd, hndm, hndid⟩ := List.mem_map.mp hm
  obtain ⟨t, ht⟩ := List.mem_iff_getElem?.mp hndm
  have htlt : t < ((sortedNodes g).map NewNode).length := (List.getElem?_eq_some_iff.mp ht).1
  obtain ⟨i, hi, -⟩ := findNode_of_mem hsorted htlt ((nidAt_eq ht).trans hndid)
  obtain ⟨hilt, hiid, -⟩ := findNode_fresh g id i hi
  have hia : (NewNetwork g).2.nodes[i]? = some (NewNetwork g).2.nodes[i] :=
    List.getElem?_eq_getElem hilt
  exact ⟨i, _, hi, hia, by rw [← nidAt_eq hia, hiid]⟩

/-- With pairwise distinct ids, the position of a node of the decoded network
is determined by its id. -/
theorem newNetwork_pos_unique [Zero α] (g : Genome α)
    (hnd : (g.nodes.map NodeGene.nid).Nodup) (i j : Nat) (a b : Node α)
    (ha : (NewNetwork g).2.nodes[i]? = some a) (hb : (NewNetwork g).2.nodes[j]? = some b)
    (hab : a.nid = b.nid) : i = j := by
  have hnodup : ((NewNetwork g).2.nodes.map Node.nid).Nodup := by
    rw [newNetwork_map_nid]
    exact (((sortedNodes_perm g).map NodeGene.nid).nodup_iff).mpr hnd
  have hi : i < ((NewNetwork g).2.nodes.map Node.nid).length := by
    rw [List.length_map]; exact (List.getElem?_eq_some_iff.mp ha).1
  have hj : j < ((NewNetwork g).2.nodes.map Node.nid).length := by
    rw [List.length_map]; exact (List.getElem?_eq_some_iff.mp hb).1
  have e1 : ((NewNetwork g).2.nodes.map Node.nid)[i]? = some a.nid := by
    rw [List.getElem?_map, ha]; rfl
  have e2 : ((NewNetwork g).2.nodes.map Node.nid)[j]? = some b.nid := by
    rw [List.getElem?_map, hb]; rfl
  rw [List.getElem?_eq_getElem hi] at e1
  rw [List.getElem?_eq_getElem hj] at e2
  have hinj := List.nodup_iff_injective_get.mp hnodup
  have heq : ((NewNetwork g).2.nodes.map Node.nid).get ⟨i, hi⟩
      = ((NewNetwork g).2.nodes.map Node.nid).get ⟨j, hj⟩ := by
    show ((NewNetwork g).2.nodes.map Node.nid)[i] = ((NewNetwork g).2.nodes.map Node.nid)[j]
    rw [Option.some.inj e1, Option.some.inj e2, hab]
  exact congrArg Fin.val (hinj heq)

theorem foldl_add_congr [Add α] (t1 t2 : Nat → α) (conn : List Nat) (acc : α)
    (h : ∀ y ∈ conn, t1 y = t2 y) :
    conn.foldl (fun sum y => sum + t1 y) acc = conn.foldl (fun sum y => sum + t2 y) acc := by
  induction conn generalizing acc with
  | nil => rfl
  | cons y rest ih =>
    simp only [List.foldl_cons]
    rw [h y (List.mem_cons_self _ _)]
    exact ih _ (fun z hz => h z (List.mem_cons_of_mem _ hz))

theorem foldl_replicate_iterate [Add α] (t : Nat → α) (k i : Nat) (acc : α) :
    (List.replicate k i).foldl (fun sum y => sum + t y) acc = (fun sum => sum + t i)^[k] acc := by
  induction k generalizing acc with
  | zero => rfl
  | succ k ih =>
    simp only [List.replicate_succ, List.foldl_cons, Function.iterate_succ_apply]
    exact ih _

/-- C19 (duplicate connections): for a genome with pairwise distinct node ids
that has `k ≥ 1` enabled connections from the node id `a` to the node id `b`,
the decoded node with id `b` holds the node with id `a` exactly `k` times in its
inbound sequence and a single weight entry for it, the weight of the last such
connection in genome order. So `Node.Output` on that node, in any signal state
of the decoded network, returns its activation of the sum of the Go loop in
which each of the `k` entries of that source adds `source.signal * last weight`
(no law of arithmetic assumed); when the source is the only one, that is `k`
additions of `source.signal * last weight` to `0`. -/
theorem newNetwork_duplicates [Zero α] [Add α] [Mul α] (g : Genome α)
    (hnd : (g.nodes.map NodeGene.nid).Nodup) (a b : Int)
    (ha : a ∈ g.nodes.map NodeGene.nid) (hb : b ∈ g.nodes.map NodeGene.nid)
    (hk : 1 ≤ g.conns.countP (fun d => !d.disabled && decide (d.src = a) &&
      decide (d.out = b))) :
    (∃ (i o : Nat) (ni no : Node α), (NewNetwork g).2.nodes[i]? = some ni ∧ ni.nid = a ∧
        (NewNetwork g).2.nodes[o]? = some no ∧ no.nid = b) ∧
      ∀ (i o : Nat) (ni no : Node α), (NewNetwork g).2.nodes[i]? = some ni → ni.nid = a →
        (NewNetwork g).2.nodes[o]? = some no → no.nid = b →
        no.connNodes.count i = g.conns.countP (fun d => !d.disabled && decide (d.src = a) &&
            decide (d.out = b)) ∧
          no.connNodes.filter (fun y => y == i) =
            List.replicate (g.conns.countP (fun d => !d.disabled && decide (d.src = a) &&
              decide (d.out = b))) i ∧
          (no.weights.map Prod.fst).count i = 1 ∧
          ∃ c, (g.conns.filter (fun d => !d.disabled && decide (d.src = a) &&
                decide (d.out = b))).getLast? = some c ∧
            no.weights.lookup i = some c.weight ∧
            ∀ (nodes1 : List (Node α)) (f : α → α),
              SameTopology (NewNetwork g).2.nodes nodes1 → no.afn = some f →
              (∃ nodes2, Node.Output nodes1 o = .ok (nodes2,
                f (no.connNodes.foldl (fun sum s => sum + signalAt nodes1 s *
                  (if s = i then c.weight else no.weights.get s)) 0))) ∧
              (no.connNodes = List.replicate (g.conns.countP (fun d => !d.disabled &&
                  decide (d.src = a) && decide (d.out = b))) i →
                ∃ nodes2, Node.Output nodes1 o = .ok (nodes2,
                  f ((fun sum => sum + signalAt nodes1 i * c.weight)^[g.conns.countP
                    (fun d => !d.disabled && decide (d.src = a) && decide (d.out = b))] 0))) := by
  obtain ⟨i0, a0, hf1, ha0, hid0⟩ := newNetwork_find g a ha
  obtain ⟨o0, b0, hf2, hb0, hod0⟩ := newNetwork_find g b hb
  refine ⟨⟨i0, o0, a0, b0, ha0, hid0, hb0, hod0⟩, ?_⟩
  intro i o ni no hni hnis hno hnos
  have hi : i = i0 := newNetwork_pos_unique g hnd i i0 ni a0 hni ha0 (hnis.trans hid0.symm)
  have ho : o = o0 := newNetwork_pos_unique g hnd o o0 no b0 hno hb0 (hnos.trans hod0.symm)
  subst hi
  subst ho
  set pos := findNode ((sortedNodes g).map NewNode) with hpos
  set p : ConnGene α → Bool := fun d => !d.disabled && decide (d.src = a) && decide (d.out = b)
    with hp
  have hsel : ∀ d : ConnGene α, p d = true ↔
      (d.disabled = false ∧ pos d.src = some i ∧ pos d.out = some o) := by
    intro d
    simp only [hp, Bool.and_eq_true, Bool.not_eq_true', decide_eq_true_eq]
    constructor
    · rintro ⟨⟨h1, h2⟩, h3⟩
      exact ⟨h1, by rw [h2]; exact hf1, by rw [h3]; exact hf2⟩
    · rintro ⟨h1, h2, h3⟩
      refine ⟨⟨h1, ?_⟩, ?_⟩
      · rw [← (findNode_some h2).2, ← (findNode_some hf1).2]
      · rw [← (findNode_some h3).2, ← (findNode_some hf2).2]
  obtain ⟨d, -, hrep⟩ := newNetwork_node g o no hno
  set L := g.conns.filterMap (wire pos o) with hL
  obtain ⟨-, -, -, hconn⟩ := foldl_addConn_fields L (NewNode d)
  obtain ⟨hknodup, hkmem, -⟩ := foldl_addConn_keys L (NewNode d) (by simp [NewNode])
  have hc : no.connNodes = L.map Prod.fst := by
    rw [hrep, hconn]; simp [NewNode]
  -- the number of inbound entries equal to `i`
  have hcount : no.connNodes.count i = g.conns.countP p := by
    rw [hc, hL, count_wire]
    apply List.countP_congr
    intro e _
    rw [hsel e]
    simp only [Bool.and_eq_true, Bool.not_eq_true', decide_eq_true_eq, and_assoc]
  -- the last connection and the weight stored
  have hne : g.conns.filter p ≠ [] := by
    intro he
    have : g.conns.countP p = 0 := by rw [List.countP_eq_length_filter, he]; rfl
    omega
  obtain ⟨c, hlast⟩ : ∃ c, (g.conns.filter p).getLast? = some c := by
    cases hl : (g.conns.filter p).getLast? with
    | none => exact absurd (List.getLast?_eq_none_iff.mp hl) hne
    | some c => exact ⟨c, rfl⟩
  have hlook : no.weights.lookup i = some c.weight := by
    rw [hrep, foldl_addConn_lookup_last, filter_wire pos o i p hsel, List.getLast?_map, hlast]
    rfl
  have hget : no.weights.get i = c.weight := by
    simp [WeightMap.get, hlook]
  have hfilter : no.connNodes.filter (fun y => y == i) = List.replicate (g.conns.countP p) i := by
    rw [List.filter_beq, hcount]
  refine ⟨hcount, hfilter, ?_, c, hlast, hlook, ?_⟩
  · have hmem : i ∈ no.weights.map Prod.fst := by
      apply (lookup_isSome_iff no.weights i).mp
      rw [hlook]; rfl
    have hn : (no.weights.map Prod.fst).Nodup := by rw [hrep]; exact hknodup
    exact List.count_eq_one_of_mem hn hmem
  · intro nodes1 f hsame hf
    obtain ⟨no1, hno1, hT⟩ := sameTopology_get hsame hno
    have hrefs : ∀ q ∈ no1.connNodes, q < nodes1.length := by
      intro q hq
      rw [← hT.2.1, hc] at hq
      obtain ⟨x, hx, hxq⟩ := List.mem_map.mp hq
      obtain ⟨e, -, hwe⟩ := List.mem_filterMap.mp hx
      obtain ⟨-, h2, -, -⟩ := (wire_eq_some _ _ _ _).mp hwe
      rw [hxq] at h2
      rw [← hsame.1]
      exact (findNode_fresh g _ _ h2).1
    have hout := Output_ok nodes1 o no1 f hno1 (by rw [← hT.2.2.2]; exact hf) hrefs
    have hval : weightedSum (signalAt nodes1) no1.weights no1.connNodes =
        no.connNodes.foldl (fun sum s => sum + signalAt nodes1 s *
          (if s = i then c.weight else no.weights.get s)) 0 := by
      rw [← hT.2.1, ← hT.2.2.1]
      unfold weightedSum
      apply foldl_add_congr
      intro y _
      by_cases hy : y = i
      · rw [if_pos hy, hy, hget]
      · rw [if_neg hy]
    rw [hval] at hout
    refine ⟨⟨_, hout⟩, ?_⟩
    intro hrepl
    have e : no.connNodes.foldl (fun sum s => sum + signalAt nodes1 s *
          (if s = i then c.weight else no.weights.get s)) 0 =
        (fun sum => sum + signalAt nodes1 i * c.weight)^[g.conns.countP p] 0 := by
      rw [hrepl, foldl_replicate_iterate]
      simp only [if_true]
    rw [e] at hout
    exact ⟨_, hout⟩

/-- Witness of C19 on `dupGenome` (two enabled connections 0→1, of weights 1
and 2): the node with id 1 holds position 0 twice and one weight for it, 2; with
the signal 3 in node 0, `Node.Output` on it returns `3*2 + 3*2 = 12`, not
`3*(1+2) = 9`. -/
theorem newNetwork_duplicates_witness :
    (∃ no, (NewNetwork dupGenome).2.nodes[1]? = some no ∧ no.connNodes.count 0 = 2 ∧
        (no.weights.map Prod.fst).count 0 = 1 ∧ no.weights.lookup 0 = some 2) ∧
      ((NewNetwork dupGenome).2.after 1 1 [3]).nodes.map Node.signal = [3, 12] ∧
      ∃ nodes2, Node.Output ((NewNetwork dupGenome).2.after 1 1 [3]).nodes 1
        = .ok (nodes2, (12 : ℤ)) := by
  have h := (newNetwork_duplicates dupGenome (by decide) 0 1 (by decide) (by decide)
    (by decide)).2 0 1 (Node.mk 0 [] [] 0 idAfn) (Node.mk 1 [0, 0] [(0, 2)] 0 idAfn)
    rfl rfl rfl rfl
  obtain ⟨h1, -, h2, c, hc, h3, h4⟩ := h
  have hcw : c = ⟨0, 1, 2, false⟩ := Option.some.inj (hc.symm.trans rfl)
  subst hcw
  obtain ⟨⟨nodes2, h5⟩, -⟩ := h4 ((NewNetwork dupGenome).2.after 1 1 [3]).nodes (fun x => x)
    (sameTopology_after 1 1 _ [3]) rfl
  exact ⟨⟨_, rfl, h1, h2, rfl⟩, by decide, nodes2, h5.trans rfl⟩

theorem sumLoop_error [Zero α] [Add α] [Mul α] (nodes : List (Node α)) (w : WeightMap α)
    (conn : List Nat) (acc : α) (e : Fault) (h : sumLoop nodes w conn acc = .error e) :
    e = .nilDereference := by
  induction conn generalizing acc with
  | nil => simp [sumLoop] at h
  | cons q rest ih =>
    simp only [sumLoop] at h
    cases hq : nodes[q]? with
    | none =>
      simp only [hq, Except.error.injEq] at h
      exact h.symm
    | some nd =>
      simp only [hq] at h
      exact ih _ h

/-- A call of `Node.Output` on a node with a nil activation panics. -/
theorem Output_nil [Zero α] [Add α] [Mul α] (nodes : List (Node α)) (p : Nat) (n : Node α)
    (hp : nodes[p]? = some n) (hf : n.afn = none) :
    Node.Output nodes p = .error .nilDereference := by
  unfold Node.Output
  simp only [hp]
  cases hs : sumLoop nodes n.weights n.connNodes 0 with
  | error e =>
    simp only
    rw [sumLoop_error _ _ _ _ _ hs]
  | ok sum => simp only [hf]

/-- C13, as amended (unresolved activation): constructing a node from a
descriptor with a nil activation does not fail, it gives a node with that id
and a nil activation; decoding a genome with such a descriptor gives a network
with one node per descriptor, one of them with that id and a nil activation; the
nil activation surfaces when that node is evaluated: `Node.Output` on it panics,
and `Activate` returns nothing when it is an output or hidden node. -/
theorem newNode_nil_activation [Zero α] [Add α] [Mul α] :
    (∀ d : NodeGene α, d.afn = none → (NewNode d).nid = d.nid ∧ (NewNode d).afn = none) ∧
      (∀ (g : Genome α) (d : NodeGene α), d ∈ g.nodes → d.afn = none →
        (NewNetwork g).2.nodes.length = g.nodes.length ∧
          ∃ nd ∈ (NewNetwork g).2.nodes, nd.nid = d.nid ∧ nd.afn = none) ∧
      (∀ (nodes : List (Node α)) (p : Nat) (n : Node α), nodes[p]? = some n → n.afn = none →
        Node.Output nodes p = .error .nilDereference) ∧
      ∀ (S O : Nat) (n : Network α) (inputs : List α) (p : Nat) (nd : Node α), S ≤ p →
        n.nodes[p]? = some nd → nd.afn = none →
        ∀ n1 outs, n.Activate S O inputs ≠ .ok n1 outs := by
  refine ⟨fun d hd => ⟨rfl, hd⟩, ?_, fun nodes p n hp hf => Output_nil nodes p n hp hf, ?_⟩
  · intro g d hd hnone
    refine ⟨newNetwork_length g, ?_⟩
    obtain ⟨hdesc, -⟩ := newNetwork_descriptors g
    have hm : d ∈ sortedNodes g := (sortedNodes_perm g).mem_iff.mpr hd
    rw [← hdesc] at hm
    obtain ⟨nd, hnd, hnd2⟩ := List.mem_map.mp hm
    refine ⟨nd, hnd, ?_, ?_⟩
    · rw [← hnd2]
    · rw [← hnone, ← hnd2]
  · intro S O n inputs p nd hp hget hnone n1 outs h
    obtain ⟨-, -, hev⟩ := Activate_ok_inv S O n n1 inputs outs h
    have hplt : p < n.nodes.length := (List.getElem?_eq_some_iff.mp hget).1
    have := (evaluableFrom_iff S n).mp hev p hp hplt
    obtain ⟨nd2, f, h1, h2, -⟩ := (evaluable_iff _ _).mp this
    rw [hget] at h1
    cases h1
    rw [hnone] at h2
    cases h2

/-- Counterexample to C13 as stated: `NewNode` returns a node for a descriptor
with a nil activation, and decoding `nilGenome` returns a network (one node,
id 0, nil activation) rather than failing. -/
theorem newNode_nil_activation_counterexample :
    (NewNode (⟨7, none⟩ : NodeGene ℤ)).nid = 7 ∧
      (NewNode (⟨7, none⟩ : NodeGene ℤ)).afn.isSome = false ∧
      (NewNetwork nilGenome).2.nodes.map (fun nd => (nd.nid, nd.afn.isSome)) = [(0, false)] := by
  decide

/-- C14 (immutable topology): for every network and every input vector, the
network after `Activate` has the same node sequence length and order and, node
by node, the same id, inbound sequence, weights and activation: only signals
differ; and `Node.Output` changes nothing but the signal of the node it is
called on. -/
theorem activate_topology [Zero α] [Add α] [Mul α] (S O : Nat) (n : Network α)
    (inputs : List α) :
    SameTopology n.nodes (n.after S O inputs).nodes ∧
      (∀ n1 outs, n.Activate S O inputs = .ok n1 outs → SameTopology n.nodes n1.nodes) ∧
      (∀ n1 msg, n.Activate S O inputs = .err n1 msg → n1 = n) ∧
      ∀ (nodes nodes1 : List (Node α)) (p : Nat) (v : α),
        Node.Output nodes p = .ok (nodes1, v) →
        SameTopology nodes nodes1 ∧ ∀ q, q ≠ p → nodes1[q]? = nodes[q]? := by
  refine ⟨sameTopology_after S O n inputs,
    fun n1 outs h => Activate_ok_sameTopology S O n n1 inputs outs h,
    fun n1 msg h => (Activate_err_inv S O n n1 inputs msg h).1, ?_⟩
  intro nodes nodes1 p v h
  obtain ⟨nd, f, hnd, -, -, -, hA⟩ := Output_ok_inv nodes nodes1 p v h
  rw [hA]
  refine ⟨sameTopology_set nodes p nd v hnd, ?_⟩
  intro q hq
  exact List.getElem?_set_ne (fun h => hq h.symm)

/-- C15 (state persists across calls): on the network decoded from
`cycleGenome` (output `Y` reads `H`, hidden `H` reads `Y`: a cycle), with
`a = [5]` and `b = [9]`, `Activate(b)` right after `Activate(a)` returns `[14]`,
while `Activate(b)` on the freshly decoded network returns `[9]`. -/
theorem activate_state_persists :
    (NewNetwork cycleGenome).2.nodes.map Node.connNodes = [[], [0, 2], [1]] ∧
      ((NewNetwork cycleGenome).2.after 1 1 [5]).outputsOf 1 1 [9] = some [14] ∧
      (NewNetwork cycleGenome).2.outputsOf 1 1 [9] = some [9] ∧
      ((NewNetwork cycleGenome).2.after 1 1 [5]).outputsOf 1 1 [9]
        ≠ (NewNetwork cycleGenome).2.outputsOf 1 1 [9] := by
  decide

/-- The sensor loop runs past the end of a node sequence that is too short. -/
theorem sensorLoop_short (inputs : List α) (k i : Nat) (nodes : List (Node α))
    (hi : i ≤ nodes.length) (hlen : nodes.length < i + k) (hin : i + k ≤ inputs.length) :
    sensorLoop inputs k i nodes = .error .indexOutOfRange := by
  induction k generalizing i nodes with
  | zero => omega
  | succ k ih =>
    simp only [sensorLoop]
    by_cases hlt : i < nodes.length
    · have hnd : nodes[i]? = some nodes[i] := List.getElem?_eq_getElem hlt
      have hx : inputs[i]? = some inputs[i] := List.getElem?_eq_getElem (by omega)
      simp only [hnd, hx]
      apply ih
      · simp only [List.length_set]; omega
      · simp only [List.length_set]; omega
      · omega
    · have hnd : nodes[i]? = none := List.getElem?_eq_none_iff.mpr (by omega)
      simp only [hnd]

/-- A pass over evaluable nodes runs past the end of a node sequence that is
too short. -/
theorem outputLoop_short [Zero α] [Add α] [Mul α] (k i : Nat) (nodes : List (Node α))
    (hi : i ≤ nodes.length) (hlen : nodes.length < i + k)
    (hev : ∀ p, i ≤ p → p < nodes.length → evaluable nodes p = true) :
    outputLoop k i nodes = .error .indexOutOfRange := by
  induction k generalizing i nodes with
  | zero => omega
  | succ k ih =>
    simp only [outputLoop]
    by_cases hlt : i < nodes.length
    · simp only [hlt, if_true]
      rcases (evaluable_iff nodes i).mp (hev i (Nat.le_refl _) hlt) with ⟨nd, f, hnd, hf, hc⟩
      rw [Output_ok nodes i nd f hnd hf hc]
      simp only
      have hST := sameTopology_set nodes i nd
        (f (weightedSum (signalAt nodes) nd.weights nd.connNodes)) hnd
      rw [ih (i + 1) _ (by simp only [List.length_set]; omega)
        (by simp only [List.length_set]; omega) (by
          intro p hp1 hp2
          rw [evaluable_congr hST]
          simp only [List.length_set] at hp2
          exact hev p (by omega) hp2)]
    · simp only [hlt, if_false]

/-- On a network all of whose nodes are evaluable, `Activate` with `S` inputs
panics with an index out of range when there are fewer than `S + O` nodes. -/
theorem Activate_short [Zero α] [Add α] [Mul α] (S O : Nat) (n : Network α) (inputs : List α)
    (hin : inputs.length = S) (hev : n.evaluableFrom 0 = true)
    (hshort : n.nodes.length < S + O) :
    n.Activate S O inputs = .panic .indexOutOfRange := by
  have hev0 := (evaluableFrom_iff 0 n).mp hev
  unfold Network.Activate
  simp only [hin, ne_eq, not_true_eq_false, if_false]
  by_cases hS : n.nodes.length < S
  · rw [sensorLoop_short inputs S 0 n.nodes (Nat.zero_le _) (by omega) (by omega)]
  · rcases sensorLoop_spec inputs S 0 n.nodes (by omega) (by omega) with ⟨nodes1, h1, hT1, -, -⟩
    have hl : nodes1.length = n.nodes.length := hT1.1.symm
    have hz : nodes1.length - (S + O) = 0 := by omega
    simp only [h1, hz, outputLoop]
    rw [outputLoop_short O S nodes1 (by omega) (by omega) (by
      intro p hp1 hp2
      rw [evaluable_congr hT1]
      exact hev0 p (Nat.zero_le _) (by omega))]

/-- The network decoded from a genome whose descriptors all have a resolved
activation has only evaluable nodes. -/
theorem newNetwork_evaluable [Zero α] (g : Genome α)
    (hres : ∀ d ∈ g.nodes, d.afn.isSome = true) : (NewNetwork g).2.evaluableFrom 0 = true := by
  rw [evaluableFrom_iff]
  intro p _ hp
  have hget : (NewNetwork g).2.nodes[p]? = some (NewNetwork g).2.nodes[p] :=
    List.getElem?_eq_getElem hp
  obtain ⟨d, hd, hrep⟩ := newNetwork_node g p _ hget
  obtain ⟨-, hafn, -, hconn⟩ := foldl_addConn_fields
    (g.conns.filterMap (wire (findNode ((sortedNodes g).map NewNode)) p)) (NewNode d)
  have hdm : d ∈ g.nodes := (sortedNodes_perm g).mem_iff.mp (List.getElem?_mem hd)
  obtain ⟨f, hf⟩ := Option.isSome_iff_exists.mp (hres d hdm)
  refine (evaluable_iff _ _).mpr ⟨_, f, hget, ?_, ?_⟩
  · rw [hrep, hafn]
    exact hf
  · intro q hq
    rw [hrep, hconn] at hq
    simp only [NewNode, List.nil_append] at hq
    obtain ⟨x, hx, hxi⟩ := List.mem_map.mp hq
    obtain ⟨c, -, hwc⟩ := List.mem_filterMap.mp hx
    obtain ⟨-, h2, -, -⟩ := (wire_eq_some _ _ _ _).mp hwc
    rw [hxi] at h2
    exact (findNode_fresh g _ _ h2).1

/-- C16 (index safety of `Activate`): for a network all of whose nodes have a
resolved activation (and inbound references that are positions of the network)
and an input vector of length `S`, `Activate` completes without an out-of-range
index, returning no error, exactly when the network has at least `S + O` nodes;
with fewer nodes it panics with an index out of range, in particular on a
network decoded from a genome with fewer than `S + O` node descriptors. -/
theorem activate_index_safety [Zero α] [Add α] [Mul α] (S O : Nat) (inputs : List α)
    (hin : inputs.length = S) :
    (∀ n : Network α, n.evaluableFrom 0 = true →
        ((∃ n1 outs, n.Activate S O inputs = .ok n1 outs) ↔ S + O ≤ n.nodes.length) ∧
        (n.nodes.length < S + O → n.Activate S O inputs = .panic .indexOutOfRange)) ∧
      ∀ g : Genome α, (∀ d ∈ g.nodes, d.afn.isSome = true) → g.nodes.length < S + O →
        (NewNetwork g).2.Activate S O inputs = .panic .indexOutOfRange := by
  constructor
  · intro n hev
    refine ⟨⟨?_, ?_⟩, Activate_short S O n inputs hin hev⟩
    · rintro ⟨n1, outs, h⟩
      exact (Activate_ok_inv S O n n1 inputs outs h).2.1
    · intro hlen
      have hevS : n.evaluableFrom S = true := by
        rw [evaluableFrom_iff]
        intro p _ hp
        exact (evaluableFrom_iff 0 n).mp hev p (Nat.zero_le _) hp
      obtain ⟨nodes1, nodes2, nodes3, outs, t⟩ := Activate_trace S O n inputs hin hlen hevS
      exact ⟨_, _, t.result⟩
  · intro g hres hshort
    apply Activate_short S O _ inputs hin (newNetwork_evaluable g hres)
    rw [newNetwork_length]
    exact hshort

/-- Witness of C16: `ffNet` (3 nodes) with 2 inputs completes for `O = 1` and
panics with an index out of range for `O = 2`; so does the network decoded from
`staleGenome` (3 nodes) for `S = 2`, `O = 2`. -/
theorem activate_index_safety_witness :
    (∃ n1 outs, ffNet.Activate 2 1 [1, 3] = .ok n1 outs) ∧
      ffNet.Activate 2 2 [1, 3] = .panic .indexOutOfRange ∧
      (NewNetwork staleGenome).2.Activate 2 2 [1, 3] = .panic .indexOutOfRange :=
  ⟨((activate_index_safety 2 1 [1, 3] (by decide)).1 ffNet (by decide)).1.mpr (by decide),
   ((activate_index_safety 2 2 [1, 3] (by decide)).1 ffNet (by decide)).2 (by decide),
   (activate_index_safety 2 2 [1, 3] (by decide)).2 staleGenome (by decide) (by decide)⟩

/-- Two node sequences of the same topology that hold the same signals are
equal. -/
theorem sameTopology_eq [Zero α] {a b : List (Node α)} (h : SameTopology a b)
    (hs : ∀ q, signalAt a q = signalAt b q) : a = b := by
  apply List.ext_getElem?
  intro q
  cases ha : a[q]? with
  | none =>
    have : a.length ≤ q := List.getElem?_eq_none_iff.mp ha
    rw [List.getElem?_eq_none_iff.mpr (by rw [← h.1]; exact this)]
  | some x =>
    obtain ⟨y, hy, hxy⟩ := sameTopology_get h ha
    rw [hy]
    have hsig := hs q
    simp only [signalAt, ha, hy] at hsig
    obtain ⟨h1, h2, h3, h4⟩ := hxy
    cases x
    cases y
    simp only at h1 h2 h3 h4 hsig
    subst h1 h2 h3 h4 hsig
    rfl

theorem feedForward_iff (S O : Nat) (n : Network α) :
    n.feedForward S O = true ↔
      ∀ (p : Nat) (nd : Node α), n.nodes[p]? = some nd →
        (S ≤ p → p < S + O → ∀ y ∈ nd.connNodes, y < S ∨ S + O ≤ y) ∧
        (S + O ≤ p → ∀ y ∈ nd.connNodes, y < S ∨ (S + O ≤ y ∧ y < p)) := by
  unfold Network.feedForward
  rw [List.all_eq_true]
  constructor
  · intro h p nd hnd
    have hp : p < n.nodes.length := (List.getElem?_eq_some_iff.mp hnd).1
    have := h p (List.mem_range.mpr hp)
    simp only [hnd] at this
    constructor
    · intro h1 h2 y hy
      have h3 : ¬ p < S := by omega
      simp only [h3, h2, if_false, if_true, List.all_eq_true, Bool.or_eq_true,
        decide_eq_true_eq] at this
      exact this y hy
    · intro h1 y hy
      have h3 : ¬ p < S := by omega
      have h4 : ¬ p < S + O := by omega
      simp only [h3, h4, if_false, List.all_eq_true, Bool.or_eq_true, Bool.and_eq_true,
        decide_eq_true_eq] at this
      exact this y hy
  · intro h p hp
    have hplt := List.mem_range.mp hp
    have hnd : n.nodes[p]? = some n.nodes[p] := List.getElem?_eq_getElem hplt
    obtain ⟨h1, h2⟩ := h p _ hnd
    simp only [hnd]
    by_cases h3 : p < S
    · simp only [h3, if_true]
    · by_cases h4 : p < S + O
      · simp only [h3, h4, if_false, if_true, List.all_eq_true, Bool.or_eq_true,
          decide_eq_true_eq]
        exact h1 (by omega) h4
      · simp only [h3, h4, if_false, List.all_eq_true, Bool.or_eq_true, Bool.and_eq_true,
          decide_eq_true_eq]
        exact h2 (by omega)

/-- On a feed-forward network two completed calls of `Activate` with the same
inputs, from two signal states of the same topology, end in the same network
and return the same outputs. -/
theorem feedForward_runs [Zero α] [Add α] [Mul α] (S O : Nat) (n m : Network α)
    (inputs : List α) (hff : n.feedForward S O = true) (hsame : SameTopology n.nodes m.nodes)
    (n1 n2 : Network α) (o1 o2 : List α) (h1 : n.Activate S O inputs = .ok n1 o1)
    (h2 : m.Activate S O inputs = .ok n2 o2) : n1 = n2 ∧ o1 = o2 := by
  obtain ⟨hin, hlen, -, a1, a2, t⟩ := Activate_ok_trace S O n n1 inputs o1 h1
  obtain ⟨-, hlenm, -, b1, b2, u⟩ := Activate_ok_trace S O m n2 inputs o2 h2
  have hff0 := (feedForward_iff S O n).mp hff
  obtain ⟨hsa, -⟩ := sensorLoop_facts inputs S n.nodes a1 (by omega) hin t.sensors
  obtain ⟨hsb, -⟩ := sensorLoop_facts inputs S m.nodes b1 (by omega) hin u.sensors
  obtain ⟨va, hha⟩ := t.hidden
  obtain ⟨vb, hhb⟩ := u.hidden
  obtain ⟨-, -, hfa2, hva2, -⟩ := outputLoop_facts _ _ _ _ _ hha
  obtain ⟨-, -, hfb2, hvb2, -⟩ := outputLoop_facts _ _ _ _ _ hhb
  obtain ⟨-, hla, hfa3, hva3, hoa⟩ := outputLoop_facts _ _ _ _ _ t.outputs
  obtain ⟨-, hlb, hfb3, hvb3, hob⟩ := outputLoop_facts _ _ _ _ _ u.outputs
  -- topologies
  have hT1 : SameTopology a1 b1 :=
    sameTopology_trans (sameTopology_trans (sameTopology_symm t.top1) hsame) u.top1
  have hT2 : SameTopology a2 b2 :=
    sameTopology_trans (sameTopology_trans (sameTopology_symm t.top2) hT1) u.top2
  have hT3 : SameTopology n1.nodes n2.nodes :=
    sameTopology_trans (sameTopology_trans (sameTopology_symm t.top3) hT2) u.top3
  have hl1 : a1.length = n.nodes.length := t.top1.1.symm
  have hl2 : a2.length = n.nodes.length := by rw [← t.top2.1, hl1]
  have hlm : m.nodes.length = n.nodes.length := hsame.1.symm
  -- the sensors hold the inputs in both runs
  have hsens : ∀ q, q < S → signalAt a1 q = signalAt b1 q := by
    intro q hq
    have hx : inputs[q]? = some inputs[q] := List.getElem?_eq_getElem (by omega)
    have e1 := hsa q hq
    have e2 := hsb q hq
    rw [hx] at e1 e2
    rw [signalAt_eq_of_get e1, signalAt_eq_of_get e2]
  -- the hidden nodes, by induction on the position
  have hhid : ∀ p, S + O ≤ p → p < n.nodes.length → signalAt a2 p = signalAt b2 p := by
    intro p
    induction p using Nat.strong_induction_on with
    | _ p ih =>
      intro hp1 hp2
      have hx : a1[p]? = some a1[p] := List.getElem?_eq_getElem (by omega)
      obtain ⟨y, hy, hxy⟩ := sameTopology_get hT1 hx
      obtain ⟨z, hz, hxz⟩ := sameTopology_get (sameTopology_symm t.top1) hx
      obtain ⟨f, hf⟩ : ∃ f, a1[p].afn = some f := by
        have hev := outputLoop_ok_inv _ _ _ _ hha p hp1 (by omega)
        obtain ⟨nd, f, e1, e2, -⟩ := (evaluable_iff _ _).mp hev
        rw [hx] at e1
        cases e1
        exact ⟨f, e2⟩
      have hfy : y.afn = some f := by rw [← hxy.2.2.2]; exact hf
      rw [hva2 p hp1 (by omega) _ f hx hf,
        hvb2 p hp1 (by rw [hlm]; omega) y f hy hfy, ← hxy.2.1, ← hxy.2.2.1]
      congr 1
      apply weightedSum_congr
      intro q hq
      have hq2 : q ∈ z.connNodes := by rw [← hxz.2.1]; exact hq
      rcases (hff0 p z hz).2 hp1 q hq2 with hlt | ⟨hge, hqp⟩
      · have hc : ¬ (S + O ≤ q ∧ q < p) := by omega
        rw [if_neg hc, if_neg hc]
        exact hsens q hlt
      · have hc : S + O ≤ q ∧ q < p := ⟨hge, hqp⟩
        rw [if_pos hc, if_pos hc]
        exact ih q hqp hge (by omega)
  have hhid_all : ∀ q, q < S ∨ S + O ≤ q → signalAt a2 q = signalAt b2 q := by
    intro q hq
    rcases hq with hq | hq
    · rw [signalAt_congr (hfa2 q (Or.inl (by omega))), signalAt_congr (hfb2 q (Or.inl (by omega)))]
      exact hsens q hq
    · by_cases hql : q < n.nodes.length
      · exact hhid q hq hql
      · have e1 : a2[q]? = none := List.getElem?_eq_none_iff.mpr (by omega)
        have e2 : b2[q]? = none := List.getElem?_eq_none_iff.mpr (by rw [← hT2.1]; omega)
        simp [signalAt, e1, e2]
  -- the output nodes
  have hout : ∀ p, S ≤ p → p < S + O → signalAt n1.nodes p = signalAt n2.nodes p := by
    intro p hp1 hp2
    have hx : a2[p]? = some a2[p] := List.getElem?_eq_getElem (by omega)
    obtain ⟨y, hy, hxy⟩ := sameTopology_get hT2 hx
    obtain ⟨z, hz, hxz⟩ := sameTopology_get
      (sameTopology_trans (sameTopology_symm t.top2) (sameTopology_symm t.top1)) hx
    obtain ⟨f, hf⟩ : ∃ f, a2[p].afn = some f := by
      have hev := outputLoop_ok_inv _ _ _ _ t.outputs p hp1 hp2
      obtain ⟨nd, f, e1, e2, -⟩ := (evaluable_iff _ _).mp hev
      rw [hx] at e1
      cases e1
      exact ⟨f, e2⟩
    have hfy : y.afn = some f := by rw [← hxy.2.2.2]; exact hf
    rw [hva3 p hp1 hp2 _ f hx hf, hvb3 p hp1 hp2 y f hy hfy, ← hxy.2.1, ← hxy.2.2.1]
    congr 1
    apply weightedSum_congr
    intro q hq
    have hq2 : q ∈ z.connNodes := by rw [← hxz.2.1]; exact hq
    have hqq := (hff0 p z hz).1 hp1 hp2 q hq2
    have hc : ¬ (S ≤ q ∧ q < p) := by omega
    rw [if_neg hc, if_neg hc]
    exact hhid_all q hqq
  -- all signals after the call
  have hall : ∀ q, signalAt n1.nodes q = signalAt n2.nodes q := by
    intro q
    by_cases hq : S ≤ q ∧ q < S + O
    · exact hout q hq.1 hq.2
    · have hq2 : q < S ∨ S + O ≤ q := by omega
      rw [signalAt_congr (hfa3 q hq2), signalAt_congr (hfb3 q hq2)]
      exact hhid_all q hq2
  have hnodes : n1.nodes = n2.nodes := sameTopology_eq hT3 hall
  constructor
  · cases n1
    cases n2
    simp only at hnodes
    rw [hnodes]
  · apply List.ext_getElem?
    intro j
    by_cases hj : j < O
    · rw [hoa j hj, hob j hj, hall]
    · rw [List.getElem?_eq_none_iff.mpr (by omega), List.getElem?_eq_none_iff.mpr (by omega)]

/-- C17 (feed-forward state independence): on a network of at least `S + O`
nodes in which every hidden node reads only sensors and hidden nodes at lower
positions and every output node reads only sensors and hidden nodes, the
network after `Activate` and the outputs depend on the inputs alone: two
completed calls with the same `S` inputs from two prior signal states (`n` and
`m`, of the same topology) give the same network and the same outputs; the call
completes when the output and hidden nodes are evaluable, and repeating it on
the resulting network changes nothing. -/
theorem activate_feedforward_independent [Zero α] [Add α] [Mul α] (S O : Nat) (n m : Network α)
    (inputs : List α) (hlen : S + O ≤ n.nodes.length) (hin : inputs.length = S)
    (hff : n.feedForward S O = true) (hsame : SameTopology n.nodes m.nodes) :
    (n.evaluableFrom S = true → ∃ n1 outs, n.Activate S O inputs = .ok n1 outs ∧
        m.Activate S O inputs = .ok n1 outs ∧ n1.Activate S O inputs = .ok n1 outs) ∧
      ∀ n1 o1 n2 o2, n.Activate S O inputs = .ok n1 o1 → m.Activate S O inputs = .ok n2 o2 →
        n1 = n2 ∧ o1 = o2 := by
  have hev_congr : ∀ k : Network α, SameTopology n.nodes k.nodes →
      n.evaluableFrom S = true → k.evaluableFrom S = true := by
    intro k hk hev
    rw [evaluableFrom_iff] at hev ⊢
    intro p hp1 hp2
    rw [evaluable_congr hk]
    exact hev p hp1 (by rw [hk.1]; exact hp2)
  constructor
  · intro hev
    obtain ⟨a1, a2, a3, outs, t⟩ := Activate_trace S O n inputs hin hlen hev
    obtain ⟨b1, b2, b3, outs2, u⟩ := Activate_trace S O m inputs hin
      (by rw [← hsame.1]; exact hlen) (hev_congr m hsame hev)
    have hn3 : SameTopology n.nodes a3 :=
      sameTopology_trans (sameTopology_trans t.top1 t.top2) t.top3
    obtain ⟨c1, c2, c3, outs3, w⟩ := Activate_trace S O { nodes := a3 } inputs hin
      (by rw [← hn3.1]; exact hlen) (hev_congr { nodes := a3 } hn3 hev)
    obtain ⟨e1, e2⟩ := feedForward_runs S O n m inputs hff hsame _ _ _ _ t.result u.result
    obtain ⟨e3, e4⟩ := feedForward_runs S O n { nodes := a3 } inputs hff hn3 _ _ _ _
      t.result w.result
    refine ⟨_, _, t.result, ?_, ?_⟩
    · rw [e1, e2]; exact u.result
    · rw [e3, e4]
      have := w.result
      rw [← e3] at this
      rw [← e3]
      exact this
  · intro n1 o1 n2 o2 h1 h2
    exact feedForward_runs S O n m inputs hff hsame n1 n2 o1 o2 h1 h2

/-- Witness of C17 on the network decoded from `chainGenome`: `Activate([3])`
from the fresh state and from the state left by `Activate([7])` end in the same
network with the same outputs, and repeating the call changes nothing. -/
theorem activate_feedforward_independent_witness :
    ∃ n1 outs, (NewNetwork chainGenome).2.Activate 1 1 [3] = .ok n1 outs ∧
      ((NewNetwork chainGenome).2.after 1 1 [7]).Activate 1 1 [3] = .ok n1 outs ∧
      n1.Activate 1 1 [3] = .ok n1 outs ∧
      (NewNetwork chainGenome).2.outputsOf 1 1 [3] = some [6] ∧
      ((NewNetwork chainGenome).2.after 1 1 [7]).nodes.map Node.signal = [7, 14, 14] := by
  obtain ⟨n1, outs, h1, h2, h3⟩ :=
    (activate_feedforward_independent 1 1 (NewNetwork chainGenome).2
      ((NewNetwork chainGenome).2.after 1 1 [7]) [3] (by decide) (by decide) (by decide)
      (sameTopology_after 1 1 _ [7])).1 (by decide)
  exact ⟨n1, outs, h1, h2, h3, by decide, by decide⟩

/-- Witness of C18 on `mixedGenome`: the node at position 2 of the decoded
network refers to position 1, which is a position of the network, and has a
weight for it. -/
theorem newNetwork_closed_witness :
    1 < (NewNetwork mixedGenome).2.nodes.length ∧
      ∃ w, (Node.mk 2 [0, 1] [(0, 1), (1, 2)] 0 idAfn).weights.lookup 1 = some w :=
  newNetwork_closed mixedGenome (Node.mk 2 [0, 1] [(0, 1), (1, 2)] 0 idAfn)
    (List.getElem?_mem (show (NewNetwork mixedGenome).2.nodes[2]? = some _ from rfl))
    1 (by decide)

/-- Witness of C13 as amended, on `nilGenome`: the decoded node has a nil
activation, and `Node.Output` on it panics. -/
theorem newNode_nil_activation_witness :
    (∃ nd ∈ (NewNetwork nilGenome).2.nodes, nd.nid = 0 ∧ nd.afn = none) ∧
      Node.Output (NewNetwork nilGenome).2.nodes 0 = .error .nilDereference :=
  ⟨(newNode_nil_activation.2.1 nilGenome ⟨0, none⟩ (List.mem_singleton.mpr rfl) rfl).2,
   newNode_nil_activation.2.2.1 (NewNetwork nilGenome).2.nodes 0 (Node.mk 0 [] [] 0 none)
     rfl rfl⟩

end Theorems

end Neat
